import Mathlib

/-
Verification of the MLM (Multi-Level-Migration) pipeline.

Shallow embedding of the two source files:
  * src/MLM.py                   — tree model, confidence lookup, weight engine,
                                   migration aggregation
  * src/parse_annotated_nexus.py — extraction of state annotations from
                                   annotated-Nexus tree lines

Modelling conventions:
  * Python floats are modelled as exact rationals (ℚ); the claims under test
    are algebraic identities of the algorithm, stated over exact arithmetic.
  * Python dicts are modelled as insertion-ordered association lists; updating
    an existing key rewrites it in place, a new key is appended.
  * Fallible Python code (KeyError, StopIteration) is modelled with `Except`.
  * A node's `'region'` attribute, which the source creates only when
    `assign_geography` matches the node, is an `Option String` (`none` means
    the dict key is absent).
-/

set_option maxHeartbeats 1000000

namespace MLM

/-! ## Tree model

`Bio.Phylo` hands `MLM.py` a rooted tree of named clades; `create_node_dict`
walks it with `tree.find_clades()` (preorder) and `clade.clades` (children).
We embed the parsed tree itself as a rose tree of names. -/
inductive Tree where
  | node (name : String) (children : List Tree)

def Tree.name : Tree → String
  | .node n _ => n

def Tree.children : Tree → List Tree
  | .node _ cs => cs

/-! ## Weight engine (`assign_weight` inside `calculate_weights`, MLM.py:124-132)

```python
def assign_weight(node):
    region = node_dict[node].get('region', 'Unknown')
    confidence = get_confidence_by_name_and_region(confi_df, node, region)
    if node_dict[node]['children']:
        weight = sum(assign_weight(child) * confidence for child in node_dict[node]['children'])
    else:
        weight = 1 * confidence
    weights[node] = weight
    return weight
```

On a well-formed tree (the `node_dict` produced from a tree whose names are
unique) the dict recursion is exactly structural recursion on the tree, and a
node's weight depends only on its own subtree.  `conf` abstracts the
confidence lookup (`get_confidence_by_name_and_region` with the loaded table
curried away) and `reg` abstracts the node→region attribute written by
`assign_geography` (`none` = the `'region'` key was never created).
`assignWeightSum` spells out Python's `sum(assign_weight(child) * confidence
for child in children)` (over ℚ the bracketing of `+` is immaterial). -/
mutual
def assignWeight (conf : String → String → ℚ) (reg : String → Option String) : Tree → ℚ
  | .node name cs =>
    let confidence := conf name ((reg name).getD "Unknown")
    if cs.isEmpty then 1 * confidence
    else assignWeightSum conf reg confidence cs
def assignWeightSum (conf : String → String → ℚ) (reg : String → Option String)
    (confidence : ℚ) : List Tree → ℚ
  | [] => 0
  | c :: cs => assignWeight conf reg c * confidence + assignWeightSum conf reg confidence cs
end

/-! `leafCount`: number of leaves in a subtree (a clade with no children is a
leaf). -/
mutual
def leafCount : Tree → Nat
  | .node _ cs => if cs.isEmpty then 1 else leafCountSum cs
def leafCountSum : List Tree → Nat
  | [] => 0
  | c :: cs => leafCount c + leafCountSum cs
end

def confOne : String → String → ℚ := fun _ _ => 1

def regNone : String → Option String := fun _ => none

def exTreeABC : Tree := .node "C" [.node "A" [], .node "B" []]

/-! ## Confidence lookup (`read_confidence`, `get_confidence_by_name_and_region`,
MLM.py:44-86)

```python
confi_df = pd.read_csv(confidence_mat, sep='\t')
...
if region not in confi_df.columns:
    return 1
row = confi_df[confi_df[0] == name]
if not row.empty and region in row.columns:
    return row.iloc[0][region]
else:
    return 1
```

A pandas DataFrame is modelled as a list of column labels plus a list of
rows of cells.  Column labels are `PdKey`s because pandas indexing
distinguishes the Python string `"0"` from the Python int `0`:
`pd.read_csv` with a header row always produces *string* labels, while the
source's row lookup `confi_df[0]` indexes with the *int* `0` and therefore
raises `KeyError` on every table the pipeline can load. -/
inductive PdKey where
  | str (s : String)
  | int (n : Int)
deriving DecidableEq

inductive Cell where
  | str (s : String)
  | num (q : ℚ)
deriving DecidableEq

structure ConfiDF where
  columns : List PdKey
  rows : List (List Cell)
deriving DecidableEq

inductive PdErr where
  | keyError (k : PdKey)
deriving DecidableEq

/-- `read_confidence`: `pd.read_csv(confidence_mat, sep='\t')` — the header
fields become string column labels, the remaining lines become rows. -/
def read_confidence (header : List String) (rows : List (List Cell)) : ConfiDF :=
  ⟨header.map PdKey.str, rows⟩

def get_confidence_by_name_and_region (df : ConfiDF) (name region : String) :
    Except PdErr Cell :=
  if PdKey.str region ∉ df.columns then
    -- logging.warning(...); return 1
    .ok (.num 1)
  else
    -- row = confi_df[confi_df[0] == name]: the boolean mask is built from the
    -- column labelled by the Python int 0; absent label raises KeyError.
    match df.columns.findIdx? (fun k => k == PdKey.int 0) with
    | none => .error (.keyError (.int 0))
    | some i =>
      let row := df.rows.filter (fun r => r.getD i (Cell.str "") == Cell.str name)
      -- if not row.empty and region in row.columns: return row.iloc[0][region]
      match row, df.columns.findIdx? (fun k => k == PdKey.str region) with
      | r0 :: _, some j => .ok (r0.getD j (Cell.str ""))
      | _, _ => .ok (.num 1)

/-! ### Claim C4 -/
/-- Concrete confidence table: header `name<TAB>Asia`, one data row
`n1<TAB>0.5`. -/
def exConfDF : ConfiDF := read_confidence ["name", "Asia"] [[Cell.str "n1", Cell.num (1/2)]]

/-! ## Node table (`create_node_dict`, MLM.py:90-111)

```python
node_dict = {}
for clade in tree.find_clades():
    node_dict[clade.name] = {'children': [], 'parent': None, 'weight': 0}
for clade in tree.find_clades():
    for child in clade.clades:
        node_dict[child.name]['parent'] = clade.name
        node_dict[clade.name]['children'].append(child.name)
return node_dict
```

Python dicts are insertion-ordered; assigning to an existing key overwrites
its value in place, a fresh key is appended. -/
structure NodeRec where
  children : List String
  parent : Option String
  region : Option String
  weight : ℚ
deriving DecidableEq

def emptyRec : NodeRec := ⟨[], none, none, 0⟩

def dictSet {α : Type} (d : List (String × α)) (k : String) (v : α) : List (String × α) :=
  if d.any (fun p => p.1 == k) then d.map (fun p => if p.1 == k then (p.1, v) else p)
  else d ++ [(k, v)]

def dictModify {α : Type} (d : List (String × α)) (k : String) (f : α → α) :
    List (String × α) :=
  d.map (fun p => if p.1 == k then (p.1, f p.2) else p)

def dictFind {α : Type} (d : List (String × α)) (k : String) : Option α :=
  (d.find? (fun p => p.1 == k)).map Prod.snd

/-! `tree.find_clades()` default order is preorder (depth-first). -/
mutual
def allClades : Tree → List Tree
  | .node n cs => .node n cs :: allCladesL cs
def allCladesL : List Tree → List Tree
  | [] => []
  | c :: cs => allClades c ++ allCladesL cs
end

def create_node_dict (t : Tree) : List (String × NodeRec) :=
  let clades := allClades t
  let nd := clades.foldl (fun d c => dictSet d c.name emptyRec) []
  clades.foldl (fun d c =>
    c.children.foldl (fun d ch =>
      dictModify (dictModify d ch.name (fun r => ⟨r.children, some c.name, r.region, r.weight⟩))
        c.name (fun r => ⟨r.children ++ [ch.name], r.parent, r.region, r.weight⟩)) d) nd

/-! ### Claim C5 -/
/-- Newick tree `((B)A,(D)A)C`: the name `A` labels two distinct positions. -/
def exDupTree : Tree :=
  .node "C" [.node "A" [.node "B" []], .node "A" [.node "D" []]]

/-! ## Weight computation over the node table (`calculate_weights`,
MLM.py:115-138)

```python
root = next(node for node, data in node_dict.items() if data['parent'] is None)
weights = {node: 0 for node in node_dict}
assign_weight(root)
for node in node_dict:
    node_dict[node]['weight'] = weights[node]
```

`next` on an exhausted generator raises `StopIteration`; with several
parentless entries it silently returns the *first* one in insertion order.
`assign_weightD` is the dict-level `assign_weight` recursion threading the
`weights` accumulator; the fuel argument bounds the recursion depth (the
source recursion would not terminate on a cyclic table, modelled by
`.error .noFuel`; on tree-shaped tables depth ≤ node count, so
`calculate_weights` passes fuel `length + 1`). -/
inductive PyErr where
  | stopIteration
  | keyError (k : String)
  | missingRegion (q : String)
  | noFuel
deriving DecidableEq

def assign_weightD (nd : List (String × NodeRec)) (conf : String → String → ℚ) :
    Nat → String → List (String × ℚ) → Except PyErr (ℚ × List (String × ℚ))
  | 0, _, _ => .error .noFuel
  | fuel+1, node, ws =>
    match dictFind nd node with
    | none => .error (.keyError node)
    | some nrec =>
      let region := nrec.region.getD "Unknown"
      let confidence := conf node region
      if nrec.children.isEmpty then
        .ok (1 * confidence, dictSet ws node (1 * confidence))
      else do
        let p ← nrec.children.foldlM (fun acc child => do
            let r ← assign_weightD nd conf fuel child acc.2
            pure (acc.1 + r.1 * confidence, r.2)) ((0:ℚ), ws)
        .ok (p.1, dictSet p.2 node p.1)
termination_by structural fuel _ _ => fuel

def calculate_weights (nd : List (String × NodeRec)) (conf : String → String → ℚ) :
    Except PyErr (List (String × NodeRec)) :=
  match nd.find? (fun p => p.2.parent == none) with
  | none => .error .stopIteration
  | some root => do
    let r ← assign_weightD nd conf (nd.length + 1) root.1 (nd.map (fun p => (p.1, (0:ℚ))))
    .ok (nd.map (fun p =>
      (p.1, ⟨p.2.children, p.2.parent, p.2.region, (dictFind r.2 p.1).getD 0⟩)))

/-! ### Claim C7 -/
/-- Node table with two parentless entries (two roots). -/
def exTwoRoots : List (String × NodeRec) :=
  [("R1", ⟨[], none, none, 0⟩), ("R2", ⟨[], none, none, 0⟩)]

def exTwoRootsRes : List (String × NodeRec) :=
  [("R1", ⟨[], none, none, 1⟩), ("R2", ⟨[], none, none, 0⟩)]

/-- Node table where every entry has a parent (a 2-cycle, no root). -/
def exNoRoot : List (String × NodeRec) :=
  [("A", ⟨["B"], some "B", none, 0⟩), ("B", ⟨["A"], some "A", none, 0⟩)]

/-! ## Migration aggregation (`calculate_spread_probabilities`, MLM.py:158-181)

```python
regions_weight = {region: {'total': 0, 'sources': {}, 'local': 0} for region in set(annotations.values())}
for node, data in node_dict.items():
    region = data.get('region', 'Unknown')
    regions_weight[region]['total'] += data['weight']
    parent_region = node_dict[data['parent']]['region'] if data['parent'] else None
    if parent_region == region:
        regions_weight[region]['local'] += data['weight']
    elif parent_region and parent_region != region:
        regions_weight[region]['sources'].setdefault(parent_region, 0)
        regions_weight[region]['sources'][parent_region] += data['weight']
return regions_weight
```

Faithfulness notes:
  * `regions_weight[region]` raises `KeyError` when `region` was not an
    annotation value; modelled by `updateEntry` returning `.error`.
  * `node_dict[data['parent']]['region']` is a *plain* attribute access: a
    missing parent record raises `KeyError`, a parent record whose `'region'`
    key was never created raises `KeyError` as well (`parentRegion` errors).
  * `if data['parent']` and `elif parent_region` use Python truthiness:
    `None` *and the empty string* are falsy.
  * `'local'` is named `localW` (`local` is a Lean keyword); `'sources'` is a
    dict, i.e. an insertion-ordered association list. -/
structure RegionData where
  total : ℚ
  sources : List (String × ℚ)
  localW : ℚ
deriving DecidableEq

abbrev RegionStats := List (String × RegionData)

def initStats (seed : List String) : RegionStats := seed.map (fun r => (r, ⟨0, [], 0⟩))

def applyEntry (rw : RegionStats) (r : String) (f : RegionData → RegionData) : RegionStats :=
  rw.map (fun p => if p.1 == r then (p.1, f p.2) else p)

def updateEntry (rw : RegionStats) (r : String) (f : RegionData → RegionData) :
    Except PyErr RegionStats :=
  if (rw.find? (fun p => p.1 == r)).isSome then .ok (applyEntry rw r f)
  else .error (.keyError r)

/-- `data.get('region', 'Unknown')`. -/
def getReg (x : NodeRec) : String := x.region.getD "Unknown"

/-- `node_dict[data['parent']]['region'] if data['parent'] else None`. -/
def parentRegion (nd : List (String × NodeRec)) (x : NodeRec) : Except PyErr (Option String) :=
  match x.parent with
  | none => .ok none
  | some q =>
    if q = "" then .ok none
    else
      match dictFind nd q with
      | none => .error (.keyError q)
      | some e =>
        match e.region with
        | some r => .ok (some r)
        | none => .error (.missingRegion q)

/-- `sources.setdefault(pr, 0); sources[pr] += w`. -/
def addSource (s : List (String × ℚ)) (q : String) (w : ℚ) : List (String × ℚ) :=
  if (s.find? (fun p => p.1 == q)).isSome then
    s.map (fun p => if p.1 == q then (p.1, p.2 + w) else p)
  else s ++ [(q, 0 + w)]

/-- `regions_weight[region]['total'] += w`. -/
def fTot (w : ℚ) : RegionData → RegionData := fun e => ⟨e.total + w, e.sources, e.localW⟩

/-- `regions_weight[region]['local'] += w`. -/
def fLoc (w : ℚ) : RegionData → RegionData := fun e => ⟨e.total, e.sources, e.localW + w⟩

/-- `regions_weight[region]['sources'].setdefault(q, 0); ...[q] += w`. -/
def fSrc (q : String) (w : ℚ) : RegionData → RegionData :=
  fun e => ⟨e.total, addSource e.sources q w, e.localW⟩

/-- Body of the `for node, data in node_dict.items()` loop for one node. -/
def stepNode (nd : List (String × NodeRec)) (rw : RegionStats) (x : String × NodeRec) :
    Except PyErr RegionStats := do
  let region := getReg x.2
  let rw₁ ← updateEntry rw region (fTot x.2.weight)
  let pr ← parentRegion nd x.2
  if pr = some region then
    updateEntry rw₁ region (fLoc x.2.weight)
  else
    match pr with
    | some q =>
      if q ≠ "" then
        updateEntry rw₁ region (fSrc q x.2.weight)
      else pure rw₁
    | none => pure rw₁

def calculate_spread_probabilities (nd : List (String × NodeRec))
    (ann : List (String × String)) : Except PyErr RegionStats :=
  nd.foldlM (stepNode nd) (initStats ((ann.map Prod.snd).dedup))

/-! ### Accessors used to state the claims -/
def entryOf (rw : RegionStats) (r : String) : Option RegionData :=
  (rw.find? (fun p => p.1 == r)).map Prod.snd

def totalOf (rw : RegionStats) (r : String) : ℚ := ((entryOf rw r).map RegionData.total).getD 0

def localOf (rw : RegionStats) (r : String) : ℚ := ((entryOf rw r).map RegionData.localW).getD 0

def sourcesOf (rw : RegionStats) (r : String) : List (String × ℚ) :=
  ((entryOf rw r).map RegionData.sources).getD []

def sourceVal (s : List (String × ℚ)) (q : String) : ℚ :=
  ((s.find? (fun p => p.1 == q)).map Prod.snd).getD 0

def sourceOf (rw : RegionStats) (r q : String) : ℚ := sourceVal (sourcesOf rw r) q

def sumSources (rw : RegionStats) (r : String) : ℚ := ((sourcesOf rw r).map Prod.snd).sum

def keys (rw : RegionStats) : List String := rw.map Prod.fst

/-- Sum of the weights of a list of node-table entries. -/
def wsum (l : List (String × NodeRec)) : ℚ := (l.map (fun p => p.2.weight)).sum

/-- The parent region the loop body reads for a node, as a pure value
(meaningful on tables where `parentOkB` holds). -/
def pRegD (nd : List (String × NodeRec)) (x : NodeRec) : Option String :=
  match x.parent with
  | none => none
  | some q =>
    if q = "" then none
    else
      match dictFind nd q with
      | none => none
      | some e => e.region

/-- The node's parent attribute is either null or the (nonempty) name of a
table entry whose region attribute exists. -/
def parentOkB (nd : List (String × NodeRec)) (x : NodeRec) : Bool :=
  match x.parent with
  | none => true
  | some q =>
    !(q == "") &&
      (match dictFind nd q with
       | none => false
       | some e => e.region.isSome)

/-- Condition under which the loop body adds a node's weight to
`sources[parent_region]`: the parent region exists, is truthy (nonempty), and
differs from the node's region. -/
def sCond (pr : Option String) (r : String) : Bool :=
  match pr with
  | some q => !(q == r) && !(q == "")
  | none => false

/-! ### Claims C2 and C3: counterexamples

A fully annotated two-node tree whose root `C` is annotated with the *empty
string* region.  `weights` are the ones the weight engine computes with all
confidences 1 (`weight(A) = weight(C) = 1`).  The child `A` has region `"X"`,
its parent's region is `""` ≠ `"X"`, yet `elif parent_region and ...` treats
the empty string as falsy, so `A`'s weight lands in neither `local` nor
`sources`. -/
def exC : String × NodeRec := ("C", ⟨["A"], none, some "", 1⟩)

def exA : String × NodeRec := ("A", ⟨[], some "C", some "X", 1⟩)

def exAggNd : List (String × NodeRec) := [exC, exA]

def exAggAnn : List (String × String) := [("C", ""), ("A", "X")]

def exAggRes : RegionStats := [("", ⟨1, [], 0⟩), ("X", ⟨1, [], 0⟩)]

/-! ### Concrete witness table: the spec's own scenario `(A,B)C` -/
def exScC : String × NodeRec := ("C", ⟨["A", "B"], none, some "Region1", 2⟩)

def exScA : String × NodeRec := ("A", ⟨[], some "C", some "Region1", 1⟩)

def exScB : String × NodeRec := ("B", ⟨[], some "C", some "Region2", 1⟩)

def exScNd : List (String × NodeRec) := [exScC, exScA, exScB]

def exScAnn : List (String × String) := [("A", "Region1"), ("B", "Region2"), ("C", "Region1")]

/-! ## Annotated-Nexus extraction (`parse_nex`, parse_annotated_nexus.py:13-23)

```python
def parse_nex(nexus, blank_value='Unknown'):
    ...
    for i in nxin:
        if i.strip().startswith('Tree'):
            for j in i.strip().split(']'):
                part = j.split('(')[-1].replace('"', '').replace(')', '').replace(',', '').split('[&state=')
                if len(part) > 1:
                    print(f"{part[0].split(':')[0]}\t{part[1]}", file=nout)
                else:
                    print(f"{part[0].split(':')[0]}\t{blank_value}", file=nout)
```

Python strings are modelled as `List Char`; `parse_nex` returns the list of
emitted output lines.  `splitAux`/`pySplit` model `str.split(sep)` for a
nonempty separator `s :: ss` (scan left to right, emit the accumulated piece
when the separator is a prefix of the remainder, continue after it); the
three single-character `.replace(c, '')` calls are one filter pass. -/
def splitAux (s : Char) (ss : List Char) : List Char → List Char → List (List Char)
  | [], acc => [acc.reverse]
  | c :: rest, acc =>
    if (s :: ss).isPrefixOf (c :: rest) then
      acc.reverse :: splitAux s ss (rest.drop ss.length) []
    else splitAux s ss rest (c :: acc)
termination_by l _ => l.length
decreasing_by
  · simp only [List.length_cons, List.length_drop]
    omega
  · simp only [List.length_cons]
    omega

def pySplit (s : Char) (ss : List Char) (l : List Char) : List (List Char) :=
  splitAux s ss l []

/-- Python `str.strip()` whitespace set. -/
def isSpaceC (c : Char) : Bool :=
  c == ' ' || c == '\t' || c == '\n' || c == '\r' || c == '\x0b' || c == '\x0c'

def trimL (l : List Char) : List Char :=
  ((l.dropWhile isSpaceC).reverse.dropWhile isSpaceC).reverse

/-- The tail of the separator `'[' :: stateSep` = `"[&state="`. -/
def stateSep : List Char := ['&', 's', 't', 'a', 't', 'e', '=']

/-- Keep-predicate of the `replace('"','').replace(')','').replace(',','')`
pass. -/
def keepC (c : Char) : Bool := !(c == '\x22' || c == ')' || c == ',')

/-- One `']'`-delimited segment of a Tree line: the emitted output line for
it (`part = j.split('(')[-1].replace(...).split('[&state=')`, then
`part[0].split(':')[0]` with `part[1]` or the blank default). -/
def parse_token (blank j : List Char) : List Char :=
  match pySplit '[' stateSep (((pySplit '(' [] j).getLastD []).filter keepC) with
  | a :: b :: _ => (pySplit ':' [] a).headD [] ++ '\t' :: b
  | [a] => (pySplit ':' [] a).headD [] ++ '\t' :: blank
  | [] => []

def parse_line (blank line : List Char) : List (List Char) :=
  let t := trimL line
  if "Tree".toList.isPrefixOf t then (pySplit ']' [] t).map (parse_token blank) else []

def parse_nex (blank : List Char) (lines : List (List Char)) : List (List Char) :=
  (lines.map (parse_line blank)).flatten

/-! ### Claim C9: counterexample -/
/-- Annotated-Nexus Tree line with one *unannotated* token `B:0.2` between
two annotated ones. -/
def exNexLine : List Char := "Tree t= (A:0.1[&state=X],B:0.2)C:0.0[&state=X];".toList

/-! ### Token grammar for the amended C9 -/
/-- The structural characters removed by the `replace` pass. -/
def delim3 (c : Char) : Bool := c == ')' || c == ',' || c == '\x22'

/-- Admissible text preceding a token inside its `']'`-segment: everything
after its last `'('` (or all of it, when it has none) consists of characters
the `replace` pass removes, and it contains no `']'`. -/
def dOK (d : List Char) : Bool :=
  ((d.reverse.takeWhile (fun c => !(c == '('))).all delim3) && !(d.contains ']')

/-- Characters admissible in a token's name, branch length and state value:
none of the structural characters the parser splits or strips on. -/
def okChar (c : Char) : Bool :=
  !(c == '(') && !(c == ')') && !(c == ',') && !(c == ':') && !(c == '[') &&
    !(c == ']') && !(c == '\x22') && !(isSpaceC c)

/-- An annotated node token `name:bl[&state=v]` with its preceding segment
text `d`, as the segment text the token contributes before the closing `']'`. -/
def mkTok (t : List Char × List Char × List Char × List Char) : List Char :=
  t.1 ++ (t.2.1 ++ (':' :: (t.2.2.1 ++ ('[' :: (stateSep ++ t.2.2.2)))))

def TokOK (t : List Char × List Char × List Char × List Char) : Prop :=
  dOK t.1 = true ∧ (∀ c ∈ t.2.1, okChar c = true) ∧ (∀ c ∈ t.2.2.1, okChar c = true) ∧
    (∀ c ∈ t.2.2.2, okChar c = true)

instance (t : List Char × List Char × List Char × List Char) : Decidable (TokOK t) := by
  unfold TokOK
  infer_instance

/-- Join segments with the `']'` separator (the inverse of the line's
`split(']')`). -/
def joinSepR : List (List Char) → List Char
  | [] => []
  | [x] => x
  | x :: xs => x ++ (']' :: joinSepR xs)

/-! ### C9 witness data: a fully annotated two-leaf line -/
def exTok1 : List Char × List Char × List Char × List Char :=
  ("Tree t= (".toList, "A".toList, "1".toList, "X".toList)

def exTok2 : List Char × List Char × List Char × List Char :=
  (",".toList, "B".toList, "2".toList, "Y".toList)

/-! ## Theorems -/

/-- Custom induction principle for the nested inductive `Tree`. -/
theorem Tree.ind {P : Tree → Prop}
    (h : ∀ n cs, (∀ c ∈ cs, P c) → P (Tree.node n cs)) : ∀ t, P t
  | .node n cs => h n cs (fun c _hc => Tree.ind h c)
termination_by t => sizeOf t
decreasing_by
  have := List.sizeOf_lt_of_mem _hc
  simp only [Tree.node.sizeOf_spec]
  omega

theorem assignWeightSum_eq (conf : String → String → ℚ) (reg : String → Option String)
    (confidence : ℚ) (cs : List Tree) :
    assignWeightSum conf reg confidence cs
      = (cs.map (fun c => assignWeight conf reg c * confidence)).sum := by
  induction cs with
  | nil => simp [assignWeightSum]
  | cons c cs ih => simp [assignWeightSum, ih]

theorem assignWeight_node (conf : String → String → ℚ) (reg : String → Option String)
    (name : String) (cs : List Tree) :
    assignWeight conf reg (.node name cs) =
      if cs.isEmpty then 1 * conf name ((reg name).getD "Unknown")
      else (cs.map (fun c => assignWeight conf reg c * conf name ((reg name).getD "Unknown"))).sum := by
  rw [assignWeight, assignWeightSum_eq]

theorem leafCountSum_eq (cs : List Tree) : leafCountSum cs = (cs.map leafCount).sum := by
  induction cs with
  | nil => simp [leafCountSum]
  | cons c cs ih => simp [leafCountSum, ih]

theorem leafCount_node (name : String) (cs : List Tree) :
    leafCount (.node name cs) = if cs.isEmpty then 1 else (cs.map leafCount).sum := by
  rw [leafCount, leafCountSum_eq]

/-! ### Claim C1 -/
/-- C1: for every tree and confidence lookup, after the weight computation
completes, every leaf node `n` has `weight(n) = 1.0 × confidence(n, region(n))`,
and every internal node `n` with children `c1..ck` has
`weight(n) = confidence(n, region(n)) × (weight(c1) + ... + weight(ck))`,
where `region(n)` is the node's annotated region or `"Unknown"` if unannotated.
Every node of every tree is `Tree.node name cs` for some `name`, `cs`, and its
computed weight is `assignWeight` of its subtree. -/
theorem C1_weight_recurrence (conf : String → String → ℚ) (reg : String → Option String)
    (name : String) (cs : List Tree) :
    (cs = [] → assignWeight conf reg (.node name cs)
        = 1 * conf name ((reg name).getD "Unknown")) ∧
    (cs ≠ [] → assignWeight conf reg (.node name cs)
        = conf name ((reg name).getD "Unknown") * (cs.map (assignWeight conf reg)).sum) := by
  constructor
  · intro h
    subst h
    rw [assignWeight_node]
    simp
  · intro h
    rw [assignWeight_node]
    rw [if_neg (by simpa [List.isEmpty_iff] using h)]
    induction cs with
    | nil => simp
    | cons c cs ih =>
      cases cs with
      | nil => simp [mul_comm]
      | cons c' cs' =>
        simp only [List.map_cons, List.sum_cons] at ih ⊢
        rw [ih (by simp)]
        ring

/-- C1 witness: the recurrence evaluated at a concrete leaf and a concrete
internal node. -/
theorem C1_witness :
    assignWeight confOne regNone (.node "A" []) = 1 * confOne "A" "Unknown" ∧
    assignWeight confOne regNone exTreeABC
      = confOne "C" "Unknown" * ([Tree.node "A" [], Tree.node "B" []].map (assignWeight confOne regNone)).sum := by
  constructor
  · exact (C1_weight_recurrence confOne regNone "A" []).1 rfl
  · exact (C1_weight_recurrence confOne regNone "C" [Tree.node "A" [], Tree.node "B" []]).2
      (List.cons_ne_nil _ _)

/-! ### Claim C8 -/
/-- C8: if the confidence lookup returns 1.0 for every (node, region) pair,
then the weight of every node equals the number of leaves in its subtree. -/
theorem C8_leaf_count (conf : String → String → ℚ) (reg : String → Option String)
    (h : ∀ n r, conf n r = 1) (t : Tree) :
    assignWeight conf reg t = (leafCount t : ℚ) := by
  induction t using Tree.ind with
  | _ name cs ih =>
    rw [assignWeight_node, leafCount_node]
    by_cases hcs : cs.isEmpty
    · simp [hcs, h]
    · rw [if_neg hcs, if_neg hcs, Nat.cast_list_sum, List.map_map]
      exact congrArg List.sum (List.map_congr_left (fun c hc => by
        rw [h, mul_one, ih c hc]; rfl))

/-- C8 witness: with all confidences 1 the weight of the concrete tree
`(A,B)C` equals its leaf count 2. -/
theorem C8_witness :
    (∀ n r, confOne n r = 1) ∧ assignWeight confOne regNone exTreeABC = (leafCount exTreeABC : ℚ) := by
  exact ⟨fun n r => rfl, C8_leaf_count confOne regNone (fun n r => rfl) exTreeABC⟩

/-! ### Claim C10 -/
/-- C10: if every confidence value returned by the lookup is non-negative,
then after the weight computation every node's weight is non-negative. -/
theorem C10_weight_nonneg (conf : String → String → ℚ) (reg : String → Option String)
    (h : ∀ n r, 0 ≤ conf n r) (t : Tree) :
    0 ≤ assignWeight conf reg t := by
  induction t using Tree.ind with
  | _ name cs ih =>
    rw [assignWeight_node]
    by_cases hcs : cs.isEmpty
    · simpa [hcs] using h name ((reg name).getD "Unknown")
    · rw [if_neg hcs]
      apply List.sum_nonneg
      intro x hx
      obtain ⟨c, hc, rfl⟩ := List.mem_map.mp hx
      exact mul_nonneg (ih c hc) (h name _)

/-- C10 witness: non-negativity evaluated on the concrete tree `(A,B)C` with
all confidences 1. -/
theorem C10_witness :
    (∀ n r, (0:ℚ) ≤ confOne n r) ∧ 0 ≤ assignWeight confOne regNone exTreeABC := by
  exact ⟨fun n r => by norm_num [confOne],
    C10_weight_nonneg confOne regNone (fun n r => by norm_num [confOne]) exTreeABC⟩

/-- C4: the claim states that when the region is a column and the node name
has a row, the lookup returns the stored value, and when the name has no row
it returns the default 1.0 rather than failing.  The code instead raises
`KeyError` as soon as the region *is* a recognised column, because
`confi_df[confi_df[0] == name]` indexes the columns with the int `0`, which
`read_csv` never produces: on the table `{name: n1, Asia: 0.5}` the lookup
`(n1, Asia)` errors instead of returning the stored `0.5`. -/
theorem C4_row_lookup_keyerror :
    PdKey.str "Asia" ∈ exConfDF.columns ∧
    exConfDF.rows.filter (fun r => r.getD 0 (Cell.str "") == Cell.str "n1") ≠ [] ∧
    get_confidence_by_name_and_region exConfDF "n1" "Asia" = .error (.keyError (.int 0)) := by
  refine ⟨by decide, by decide, rfl⟩

/-! ### Claim C6 -/
/-- C6: for every confidence table, node name, and region name that is not
among the table's columns, the lookup returns the default 1.0 and does not
raise any exception. -/
theorem C6_missing_region_default (df : ConfiDF) (name region : String)
    (h : PdKey.str region ∉ df.columns) :
    get_confidence_by_name_and_region df name region = .ok (.num 1) := by
  unfold get_confidence_by_name_and_region
  rw [if_pos h]

/-- C6 witness: region `Europe` is not a column of the concrete table; the
lookup returns `1`. -/
theorem C6_witness :
    PdKey.str "Europe" ∉ exConfDF.columns ∧
    get_confidence_by_name_and_region exConfDF "n1" "Europe" = .ok (.num 1) := by
  exact ⟨by decide, C6_missing_region_default exConfDF "n1" "Europe" (by decide)⟩

/-- C5: the claim states that a repeated node name makes the build fail with
`StructuralError`.  The code has no duplicate detection at all: on
`((B)A,(D)A)C` the five tree positions produce only four records, and the two
positions named `A` are silently merged into a single record that collects
the children of both (`children = [B, D]`). -/
theorem C5_silent_merge :
    (allClades exDupTree).map Tree.name = ["C", "A", "B", "A", "D"] ∧
    (create_node_dict exDupTree).map Prod.fst = ["C", "A", "B", "D"] ∧
    dictFind (create_node_dict exDupTree) "A" = some ⟨["B", "D"], some "C", none, 0⟩ := by
  refine ⟨rfl, rfl, rfl⟩

/-- C7 counterexample: the claim states that a node table with more than one
parentless node makes the weight computation fail.  On the two-root table the
computation succeeds: root resolution silently picks the first parentless
entry `R1`, weights its component, and leaves `R2` at weight 0. -/
theorem C7_counterexample :
    (exTwoRoots.filter (fun p => p.2.parent == none)).length = 2 ∧
    calculate_weights exTwoRoots confOne = .ok exTwoRootsRes := by
  refine ⟨by decide, ?_⟩
  simp [calculate_weights, assign_weightD, exTwoRoots, exTwoRootsRes, confOne, dictFind,
    dictSet, List.find?, List.foldlM, Except.bind, bind]

/-- C7 (amended): if no node of the table has a null parent, the weight
computation fails at root resolution (an unhandled `StopIteration` in the
source — the claim's `StructuralError` is the spec's name for this fatal
failure); a table with more than one null parent is *not* rejected: the
computation proceeds using the first parentless entry as root (second
conjunct, on the concrete two-root table). -/
theorem C7_amended :
    (∀ (nd : List (String × NodeRec)) (conf : String → String → ℚ),
      (∀ p ∈ nd, p.2.parent ≠ none) → calculate_weights nd conf = .error .stopIteration) ∧
    calculate_weights exTwoRoots confOne = .ok exTwoRootsRes := by
  constructor
  · intro nd conf h
    have hf : nd.find? (fun p => p.2.parent == none) = none := by
      rw [List.find?_eq_none]
      intro p hp
      simpa using h p hp
    unfold calculate_weights
    rw [hf]
  · simp [calculate_weights, assign_weightD, exTwoRoots, exTwoRootsRes, confOne, dictFind,
      dictSet, List.find?, List.foldlM, Except.bind, bind]

/-- C7 witness: the no-root half of the amended claim evaluated on a concrete
table with no parentless entry. -/
theorem C7_witness :
    calculate_weights exNoRoot confOne = .error .stopIteration :=
  C7_amended.1 exNoRoot confOne (by decide)

theorem exAgg_eval : calculate_spread_probabilities exAggNd exAggAnn = .ok exAggRes := by
  simp [calculate_spread_probabilities, stepNode, updateEntry, applyEntry, initStats,
    parentRegion, getReg, dictFind, addSource, exAggNd, exAggAnn, exAggRes, exC, exA,
    fTot, fLoc, fSrc, List.foldlM, List.find?, Except.bind, bind, pure, Except.pure]

/-- C2 counterexample: the claim states that every node `n` with a parent `p`
adds `weight(n)` to `stats[region(n)].sources[region(p)]` whenever
`region(p) ≠ region(n)`.  On the concrete annotated weighted table
`exAggNd`, node `A` (region `"X"`, weight 1) has parent `C` with region `""`
≠ `"X"`, yet the aggregation completes with `sources[""] = 0` for region
`"X"`: the source's truthiness test `elif parent_region and ...` drops the
edge because the parent region is the empty string. -/
theorem C2_counterexample :
    calculate_spread_probabilities exAggNd exAggAnn = .ok exAggRes ∧
    exA ∈ exAggNd ∧
    getReg exA.2 = "X" ∧
    pRegD exAggNd exA.2 = some "" ∧
    ("" : String) ≠ "X" ∧
    exA.2.weight = 1 ∧
    sourceOf exAggRes "X" "" = 0 ∧
    (0 : ℚ) ≠ 1 := by
  refine ⟨exAgg_eval, by decide, rfl, rfl, by decide, rfl, rfl, by norm_num⟩

/-- C3 counterexample: the claim states that
`total - local - Σ sources` for a region `r` equals the root's weight when
the root's region is `r` and `0` otherwise.  On `exAggNd` the unique root is
`C` with region `""`, but for region `"X"` the difference is
`1 - 0 - 0 = 1 ≠ 0` (node `A`'s inbound edge was dropped by the truthiness
test, so its weight is unaccounted). -/
theorem C3_counterexample :
    calculate_spread_probabilities exAggNd exAggAnn = .ok exAggRes ∧
    exAggNd.filter (fun p => p.2.parent == none) = [exC] ∧
    getReg exC.2 = "" ∧
    ("" : String) ≠ "X" ∧
    totalOf exAggRes "X" - localOf exAggRes "X" - sumSources exAggRes "X" = 1 ∧
    (1 : ℚ) ≠ 0 := by
  refine ⟨exAgg_eval, by decide, rfl, by decide, ?_, by norm_num⟩
  simp [totalOf, localOf, sumSources, entryOf, sourcesOf, exAggRes, List.find?]

/-! ### Association-list lemmas for the aggregation state -/
theorem entryOf_nil (r : String) : entryOf [] r = none := rfl

theorem entryOf_cons (p : String × RegionData) (rw : RegionStats) (r : String) :
    entryOf (p :: rw) r = if p.1 = r then some p.2 else entryOf rw r := by
  unfold entryOf
  by_cases h : p.1 = r
  · rw [List.find?_cons_of_pos _ (by simp [h]), if_pos h]
    rfl
  · rw [List.find?_cons_of_neg _ (by simp [h]), if_neg h]

theorem mem_keys_iff (rw : RegionStats) (r : String) :
    r ∈ keys rw ↔ (entryOf rw r).isSome := by
  induction rw with
  | nil => simp [keys, entryOf_nil]
  | cons p rw ih =>
    simp only [keys, List.map_cons, List.mem_cons, entryOf_cons]
    by_cases h : p.1 = r
    · simp [h, eq_comm]
    · rw [if_neg h, ← ih]
      unfold keys
      constructor
      · rintro (hc | hm)
        · exact absurd hc.symm h
        · exact hm
      · exact fun hm => Or.inr hm

theorem applyEntry_cons (p : String × RegionData) (rw : RegionStats) (r : String)
    (f : RegionData → RegionData) :
    applyEntry (p :: rw) r f
      = (if p.1 = r then (p.1, f p.2) else p) :: applyEntry rw r f := by
  unfold applyEntry
  simp only [List.map_cons]
  by_cases h : p.1 = r <;> simp [h]

theorem entryOf_applyEntry (rw : RegionStats) (r : String) (f : RegionData → RegionData)
    (r' : String) :
    entryOf (applyEntry rw r f) r' = if r' = r then (entryOf rw r').map f else entryOf rw r' := by
  induction rw with
  | nil => simp [applyEntry, entryOf_nil]
  | cons p rw ih =>
    rw [applyEntry_cons]
    by_cases hq : p.1 = r <;> by_cases hr : r' = r
    · -- head is rewritten and r' is the updated key
      subst hr
      rw [if_pos hq, entryOf_cons, entryOf_cons]
      simp [hq]
    · -- head is rewritten but r' is a different key (so r' ≠ p.1)
      have hp' : ¬ p.1 = r' := fun hc => hr (hc.symm.trans hq)
      rw [if_pos hq, entryOf_cons, if_neg hp', ih, if_neg hr, if_neg hr, entryOf_cons,
        if_neg hp']
    · -- head untouched, r' is the updated key; the head key differs from r'
      have hp' : ¬ p.1 = r' := fun hc => hq (hc.trans hr)
      rw [if_neg hq, entryOf_cons, if_neg hp', ih, if_pos hr, if_pos hr, entryOf_cons,
        if_neg hp']
    · rw [if_neg hq, if_neg hr, entryOf_cons, entryOf_cons]
      by_cases hp' : p.1 = r'
      · rw [if_pos hp', if_pos hp']
      · rw [if_neg hp', if_neg hp', ih, if_neg hr]

theorem keys_applyEntry (rw : RegionStats) (r : String) (f : RegionData → RegionData) :
    keys (applyEntry rw r f) = keys rw := by
  unfold keys applyEntry
  rw [List.map_map]
  apply List.map_congr_left
  intro p _
  by_cases h : p.1 = r <;> simp [h]

theorem updateEntry_ok (rw : RegionStats) (r : String) (f : RegionData → RegionData)
    (h : (entryOf rw r).isSome) : updateEntry rw r f = .ok (applyEntry rw r f) := by
  unfold updateEntry
  rw [if_pos]
  have := h
  unfold entryOf at this
  simpa using this

theorem getD_map_same {β : Type} (o : Option RegionData) (f : RegionData → RegionData)
    (g : RegionData → β) (d : β) (h : ∀ e, g (f e) = g e) :
    ((o.map f).map g).getD d = (o.map g).getD d := by
  cases o <;> simp [h]

theorem getD_map_add (o : Option RegionData) (f : RegionData → RegionData)
    (g : RegionData → ℚ) (w : ℚ) (h : ∀ e, g (f e) = g e + w) (hs : o.isSome) :
    ((o.map f).map g).getD 0 = (o.map g).getD 0 + w := by
  cases o with
  | none => simp at hs
  | some e => simp [h]

theorem isSome_entryOf_applyEntry (rw : RegionStats) (r : String) (f : RegionData → RegionData)
    (r' : String) :
    (entryOf (applyEntry rw r f) r').isSome = (entryOf rw r').isSome := by
  rw [entryOf_applyEntry]
  by_cases h : r' = r
  · rw [if_pos h]
    cases entryOf rw r' <;> rfl
  · rw [if_neg h]

/-! ### `sources` dict lemmas -/
theorem sourceVal_nil (q : String) : sourceVal [] q = 0 := rfl

theorem sourceVal_cons (p : String × ℚ) (s : List (String × ℚ)) (q : String) :
    sourceVal (p :: s) q = if p.1 = q then p.2 else sourceVal s q := by
  unfold sourceVal
  by_cases h : p.1 = q
  · rw [List.find?_cons_of_pos _ (by simp [h]), if_pos h]
    rfl
  · rw [List.find?_cons_of_neg _ (by simp [h]), if_neg h]

theorem sourceVal_map_ne (s : List (String × ℚ)) (q : String) (w : ℚ) (q' : String)
    (h : ¬ q' = q) :
    sourceVal (s.map (fun p => if p.1 == q then (p.1, p.2 + w) else p)) q' = sourceVal s q' := by
  induction s with
  | nil => rfl
  | cons p s ih =>
    simp only [List.map_cons]
    by_cases hq : p.1 = q
    · rw [if_pos (by simp [hq] : (p.1 == q) = true), sourceVal_cons, sourceVal_cons]
      have hp : ¬ p.1 = q' := fun hc => h (hc.symm.trans hq)
      rw [if_neg hp, if_neg hp, ih]
    · rw [if_neg (by simp [hq] : ¬ (p.1 == q) = true), sourceVal_cons, sourceVal_cons, ih]

theorem sourceVal_map_eq (s : List (String × ℚ)) (q : String) (w : ℚ)
    (h : (s.find? (fun p => p.1 == q)).isSome) :
    sourceVal (s.map (fun p => if p.1 == q then (p.1, p.2 + w) else p)) q
      = sourceVal s q + w := by
  induction s with
  | nil => simp at h
  | cons p s ih =>
    simp only [List.map_cons]
    by_cases hq : p.1 = q
    · rw [if_pos (by simp [hq] : (p.1 == q) = true), sourceVal_cons, sourceVal_cons,
        if_pos hq, if_pos hq]
    · rw [if_neg (by simp [hq] : ¬ (p.1 == q) = true), sourceVal_cons, sourceVal_cons,
        if_neg hq, if_neg hq]
      apply ih
      rwa [List.find?_cons_of_neg _ (by simp [hq])] at h

theorem sourceVal_append_single (s : List (String × ℚ)) (q : String) (v : ℚ) (q' : String)
    (h : ¬ (s.find? (fun p => p.1 == q)).isSome = true) :
    sourceVal (s ++ [(q, v)]) q' = sourceVal s q' + if q' = q then v else 0 := by
  induction s with
  | nil =>
    simp only [List.nil_append]
    rw [sourceVal_cons, sourceVal_nil]
    by_cases hq : q' = q
    · rw [if_pos hq.symm, if_pos hq, zero_add]
    · rw [if_neg (fun hc => hq hc.symm), if_neg hq, zero_add]
  | cons p s ih =>
    simp only [List.cons_append]
    rw [sourceVal_cons, sourceVal_cons]
    by_cases hpq : p.1 = q
    · exfalso
      rw [List.find?_cons_of_pos _ (by simp [hpq])] at h
      simp at h
    · have h' : ¬ (s.find? (fun p => p.1 == q)).isSome = true := by
        rwa [List.find?_cons_of_neg _ (by simp [hpq])] at h
      by_cases hp : p.1 = q'
      · have hq : ¬ q' = q := fun hc => hpq (hp.trans hc)
        rw [if_pos hp, if_pos hp, if_neg hq, add_zero]
      · rw [if_neg hp, if_neg hp, ih h']

theorem sourceVal_addSource (s : List (String × ℚ)) (q : String) (w : ℚ) (q' : String) :
    sourceVal (addSource s q w) q' = sourceVal s q' + if q' = q then w else 0 := by
  unfold addSource
  by_cases h : (s.find? (fun p => p.1 == q)).isSome
  · rw [if_pos h]
    by_cases hq : q' = q
    · subst hq
      rw [sourceVal_map_eq s q' w h, if_pos rfl]
    · rw [sourceVal_map_ne s q w q' hq, if_neg hq, add_zero]
  · rw [if_neg h, sourceVal_append_single s q (0 + w) q' h]
    by_cases hq : q' = q <;> simp [hq]

theorem sumVals_map_eq (s : List (String × ℚ)) (q : String) (w : ℚ)
    (hnd : (s.map Prod.fst).Nodup) (h : (s.find? (fun p => p.1 == q)).isSome) :
    ((s.map (fun p => if p.1 == q then (p.1, p.2 + w) else p)).map Prod.snd).sum
      = (s.map Prod.snd).sum + w := by
  induction s with
  | nil => simp at h
  | cons p s ih =>
    simp only [List.map_cons, List.sum_cons]
    by_cases hq : p.1 = q
    · rw [if_pos (by simp [hq] : (p.1 == q) = true)]
      have hnotin : p.1 ∉ s.map Prod.fst := (List.nodup_cons.mp hnd).1
      have htail : s.map (fun p => if p.1 == q then (p.1, p.2 + w) else p) = s := by
        have hid : ∀ x ∈ s, (if x.1 == q then (x.1, x.2 + w) else x) = x := by
          intro x hx
          rw [if_neg]
          simp only [beq_iff_eq]
          intro hc
          exact hnotin (hq ▸ hc ▸ List.mem_map_of_mem Prod.fst hx)
        rw [List.map_congr_left hid]
        simp
      rw [htail]
      show p.2 + w + (s.map Prod.snd).sum = p.2 + (s.map Prod.snd).sum + w
      ring
    · rw [if_neg (by simp [hq] : ¬ (p.1 == q) = true)]
      rw [ih (List.Nodup.of_cons hnd)
        (by rwa [List.find?_cons_of_neg _ (by simp [hq])] at h)]
      ring

theorem sumVals_addSource (s : List (String × ℚ)) (q : String) (w : ℚ)
    (hnd : (s.map Prod.fst).Nodup) :
    ((addSource s q w).map Prod.snd).sum = (s.map Prod.snd).sum + w := by
  unfold addSource
  by_cases h : (s.find? (fun p => p.1 == q)).isSome
  · rw [if_pos h]
    exact sumVals_map_eq s q w hnd h
  · rw [if_neg h]
    simp

theorem nodup_addSource (s : List (String × ℚ)) (q : String) (w : ℚ)
    (hnd : (s.map Prod.fst).Nodup) :
    ((addSource s q w).map Prod.fst).Nodup := by
  unfold addSource
  by_cases h : (s.find? (fun p => p.1 == q)).isSome
  · rw [if_pos h]
    have : (s.map (fun p => if p.1 == q then (p.1, p.2 + w) else p)).map Prod.fst
        = s.map Prod.fst := by
      rw [List.map_map]
      apply List.map_congr_left
      intro x _
      by_cases hx : x.1 = q <;> simp [hx]
    rw [this]
    exact hnd
  · rw [if_neg h]
    have hq : q ∉ s.map Prod.fst := by
      intro hmem
      apply h
      obtain ⟨p, hp, hfst⟩ := List.mem_map.mp hmem
      rw [List.find?_isSome]
      exact ⟨p, hp, by simp [hfst]⟩
    rw [List.map_append]
    simp only [List.map_cons, List.map_nil]
    rw [List.nodup_append]
    refine ⟨hnd, List.nodup_singleton _, ?_⟩
    intro a ha hb
    rw [List.mem_singleton] at hb
    subst hb
    exact hq ha

/-! ### Effect of each `regions_weight` update on the accessors -/
theorem totalOf_fTot (rw : RegionStats) (ρ : String) (w : ℚ) (r : String)
    (hs : (entryOf rw ρ).isSome) :
    totalOf (applyEntry rw ρ (fTot w)) r = totalOf rw r + if ρ = r then w else 0 := by
  unfold totalOf
  rw [entryOf_applyEntry]
  by_cases h : r = ρ
  · subst h
    rw [if_pos rfl, if_pos rfl, getD_map_add _ (fTot w) RegionData.total w (fun e => rfl) hs]
  · rw [if_neg h, if_neg (fun hc => h hc.symm), add_zero]

theorem localOf_fTot (rw : RegionStats) (ρ : String) (w : ℚ) (r : String) :
    localOf (applyEntry rw ρ (fTot w)) r = localOf rw r := by
  unfold localOf
  rw [entryOf_applyEntry]
  by_cases h : r = ρ
  · subst h
    rw [if_pos rfl, getD_map_same _ (fTot w) RegionData.localW 0 (fun e => rfl)]
  · rw [if_neg h]

theorem sourcesOf_fTot (rw : RegionStats) (ρ : String) (w : ℚ) (r : String) :
    sourcesOf (applyEntry rw ρ (fTot w)) r = sourcesOf rw r := by
  unfold sourcesOf
  rw [entryOf_applyEntry]
  by_cases h : r = ρ
  · subst h
    rw [if_pos rfl, getD_map_same _ (fTot w) RegionData.sources [] (fun e => rfl)]
  · rw [if_neg h]

theorem totalOf_fLoc (rw : RegionStats) (ρ : String) (w : ℚ) (r : String) :
    totalOf (applyEntry rw ρ (fLoc w)) r = totalOf rw r := by
  unfold totalOf
  rw [entryOf_applyEntry]
  by_cases h : r = ρ
  · subst h
    rw [if_pos rfl, getD_map_same _ (fLoc w) RegionData.total 0 (fun e => rfl)]
  · rw [if_neg h]

theorem localOf_fLoc (rw : RegionStats) (ρ : String) (w : ℚ) (r : String)
    (hs : (entryOf rw ρ).isSome) :
    localOf (applyEntry rw ρ (fLoc w)) r = localOf rw r + if ρ = r then w else 0 := by
  unfold localOf
  rw [entryOf_applyEntry]
  by_cases h : r = ρ
  · subst h
    rw [if_pos rfl, if_pos rfl, getD_map_add _ (fLoc w) RegionData.localW w (fun e => rfl) hs]
  · rw [if_neg h, if_neg (fun hc => h hc.symm), add_zero]

theorem sourcesOf_fLoc (rw : RegionStats) (ρ : String) (w : ℚ) (r : String) :
    sourcesOf (applyEntry rw ρ (fLoc w)) r = sourcesOf rw r := by
  unfold sourcesOf
  rw [entryOf_applyEntry]
  by_cases h : r = ρ
  · subst h
    rw [if_pos rfl, getD_map_same _ (fLoc w) RegionData.sources [] (fun e => rfl)]
  · rw [if_neg h]

theorem totalOf_fSrc (rw : RegionStats) (ρ q : String) (w : ℚ) (r : String) :
    totalOf (applyEntry rw ρ (fSrc q w)) r = totalOf rw r := by
  unfold totalOf
  rw [entryOf_applyEntry]
  by_cases h : r = ρ
  · subst h
    rw [if_pos rfl, getD_map_same _ (fSrc q w) RegionData.total 0 (fun e => rfl)]
  · rw [if_neg h]

theorem localOf_fSrc (rw : RegionStats) (ρ q : String) (w : ℚ) (r : String) :
    localOf (applyEntry rw ρ (fSrc q w)) r = localOf rw r := by
  unfold localOf
  rw [entryOf_applyEntry]
  by_cases h : r = ρ
  · subst h
    rw [if_pos rfl, getD_map_same _ (fSrc q w) RegionData.localW 0 (fun e => rfl)]
  · rw [if_neg h]

theorem sourcesOf_fSrc (rw : RegionStats) (ρ q : String) (w : ℚ) (r : String)
    (hs : (entryOf rw ρ).isSome) :
    sourcesOf (applyEntry rw ρ (fSrc q w)) r
      = if ρ = r then addSource (sourcesOf rw r) q w else sourcesOf rw r := by
  unfold sourcesOf
  rw [entryOf_applyEntry]
  by_cases h : r = ρ
  · subst h
    rw [if_pos rfl, if_pos rfl]
    obtain ⟨e, he⟩ := Option.isSome_iff_exists.mp hs
    rw [he]
    rfl
  · rw [if_neg h, if_neg (fun hc => h hc.symm)]

/-! ### Behaviour of the loop body on one node -/
theorem parentRegion_ok (nd : List (String × NodeRec)) (x : NodeRec)
    (hp : parentOkB nd x = true) : parentRegion nd x = .ok (pRegD nd x) := by
  unfold parentOkB at hp
  cases hpar : x.parent with
  | none => simp [parentRegion, pRegD, hpar]
  | some q =>
    rw [hpar] at hp
    simp only [Bool.and_eq_true] at hp
    obtain ⟨h1, h2⟩ := hp
    have hq : ¬ q = "" := by simpa using h1
    cases hdf : dictFind nd q with
    | none =>
      rw [hdf] at h2
      simp at h2
    | some e =>
      rw [hdf] at h2
      have h2e : e.region.isSome = true := by simpa using h2
      cases hreg : e.region with
      | none =>
        rw [hreg] at h2e
        simp at h2e
      | some rr => simp [parentRegion, pRegD, hpar, hdf, hreg, hq]

theorem stepNode_spec (nd : List (String × NodeRec)) (rw : RegionStats) (x : String × NodeRec)
    (hk : (entryOf rw (getReg x.2)).isSome)
    (hp : parentOkB nd x.2 = true)
    (hnd : ∀ r, ((sourcesOf rw r).map Prod.fst).Nodup) :
    ∃ rw₁, stepNode nd rw x = .ok rw₁ ∧
      keys rw₁ = keys rw ∧
      (∀ r, ((sourcesOf rw₁ r).map Prod.fst).Nodup) ∧
      (∀ r, totalOf rw₁ r = totalOf rw r + (if getReg x.2 = r then x.2.weight else 0)) ∧
      (∀ r, localOf rw₁ r = localOf rw r +
        (if getReg x.2 = r ∧ pRegD nd x.2 = some r then x.2.weight else 0)) ∧
      (∀ r q, sourceOf rw₁ r q = sourceOf rw r q +
        (if getReg x.2 = r ∧ pRegD nd x.2 = some q ∧ ¬ q = r ∧ ¬ q = "" then x.2.weight else 0)) ∧
      (∀ r, sumSources rw₁ r = sumSources rw r +
        (if getReg x.2 = r ∧ sCond (pRegD nd x.2) r = true then x.2.weight else 0)) := by
  have step1 : updateEntry rw (getReg x.2) (fTot x.2.weight)
      = .ok (applyEntry rw (getReg x.2) (fTot x.2.weight)) := updateEntry_ok _ _ _ hk
  have hpr := parentRegion_ok nd x.2 hp
  have hkA : ∀ r', (entryOf (applyEntry rw (getReg x.2) (fTot x.2.weight)) r').isSome
      = (entryOf rw r').isSome := fun r' => isSome_entryOf_applyEntry rw (getReg x.2) _ r'
  cases hprd : pRegD nd x.2 with
  | none =>
    -- root-like node: only the total update happens
    refine ⟨applyEntry rw (getReg x.2) (fTot x.2.weight), ?_, ?_, ?_, ?_, ?_, ?_, ?_⟩
    · rw [stepNode, step1, hpr, hprd]
      simp [Except.bind, bind, pure, Except.pure]
    · exact keys_applyEntry rw _ _
    · intro r
      rw [sourcesOf_fTot]
      exact hnd r
    · intro r
      rw [totalOf_fTot rw _ _ r hk]
    · intro r
      rw [localOf_fTot]
      simp [hprd]
    · intro r q
      unfold sourceOf
      rw [sourcesOf_fTot]
      simp [hprd]
    · intro r
      unfold sumSources
      rw [sourcesOf_fTot]
      simp [hprd, sCond]
  | some q0 =>
    by_cases hq0 : q0 = getReg x.2
    · -- parent's region equals the node's region: the local update happens
      subst hq0
      refine ⟨applyEntry (applyEntry rw (getReg x.2) (fTot x.2.weight)) (getReg x.2)
        (fLoc x.2.weight), ?_, ?_, ?_, ?_, ?_, ?_, ?_⟩
      · rw [stepNode, step1, hpr, hprd]
        simp only [Except.bind, bind, pure, Except.pure]
        rw [if_pos trivial, updateEntry_ok _ _ _ (by rw [hkA]; exact hk)]
      · rw [keys_applyEntry, keys_applyEntry]
      · intro r
        rw [sourcesOf_fLoc, sourcesOf_fTot]
        exact hnd r
      · intro r
        rw [totalOf_fLoc, totalOf_fTot rw _ _ r hk]
      · intro r
        rw [localOf_fLoc _ _ _ r (by rw [hkA]; exact hk), localOf_fTot]
        by_cases h : getReg x.2 = r
        · rw [if_pos h, if_pos ⟨h, by rw [h]⟩]
        · rw [if_neg h, if_neg (fun hc => h hc.1)]
      · intro r q
        unfold sourceOf
        rw [sourcesOf_fLoc, sourcesOf_fTot]
        have hcond : ¬ (getReg x.2 = r ∧ some (getReg x.2) = some q ∧ ¬ q = r ∧ ¬ q = "") := by
          rintro ⟨h1, h2, h3, h4⟩
          exact h3 ((Option.some_injective _ h2).symm.trans h1)
        rw [if_neg hcond, add_zero]
      · intro r
        unfold sumSources
        rw [sourcesOf_fLoc, sourcesOf_fTot]
        have hcond : ¬ (getReg x.2 = r ∧ sCond (some (getReg x.2)) r = true) := by
          rintro ⟨h1, h2⟩
          simp [sCond, h1] at h2
        rw [if_neg hcond, add_zero]
    · by_cases hq0e : q0 = ""
      · -- the parent region is the empty string: falsy, no sources update
        subst hq0e
        refine ⟨applyEntry rw (getReg x.2) (fTot x.2.weight), ?_, ?_, ?_, ?_, ?_, ?_, ?_⟩
        · rw [stepNode, step1, hpr, hprd]
          simp only [Except.bind, bind, pure, Except.pure]
          rw [if_neg (fun hc => hq0 (Option.some_injective _ hc))]
          simp
        · exact keys_applyEntry rw _ _
        · intro r
          rw [sourcesOf_fTot]
          exact hnd r
        · intro r
          rw [totalOf_fTot rw _ _ r hk]
        · intro r
          rw [localOf_fTot]
          have hcond : ¬ (getReg x.2 = r ∧ (some "" : Option String) = some r) := by
            rintro ⟨h1, h2⟩
            exact hq0 ((Option.some_injective _ h2).trans h1.symm)
          rw [if_neg hcond, add_zero]
        · intro r q
          unfold sourceOf
          rw [sourcesOf_fTot]
          have hcond : ¬ (getReg x.2 = r ∧ (some "" : Option String) = some q ∧ ¬ q = r ∧ ¬ q = "") := by
            rintro ⟨h1, h2, h3, h4⟩
            exact h4 (Option.some_injective _ h2).symm
          rw [if_neg hcond, add_zero]
        · intro r
          unfold sumSources
          rw [sourcesOf_fTot]
          have hcond : ¬ (getReg x.2 = r ∧ sCond (some "") r = true) := by
            rintro ⟨h1, h2⟩
            simp [sCond] at h2
          rw [if_neg hcond, add_zero]
      · -- a genuine region transition: the sources update happens
        refine ⟨applyEntry (applyEntry rw (getReg x.2) (fTot x.2.weight)) (getReg x.2)
          (fSrc q0 x.2.weight), ?_, ?_, ?_, ?_, ?_, ?_, ?_⟩
        · rw [stepNode, step1, hpr, hprd]
          simp only [Except.bind, bind, pure, Except.pure]
          rw [if_neg (fun hc => hq0 (Option.some_injective _ hc)), if_pos hq0e,
            updateEntry_ok _ _ _ (by rw [hkA]; exact hk)]
        · rw [keys_applyEntry, keys_applyEntry]
        · intro r
          rw [sourcesOf_fSrc _ _ _ _ r (by rw [hkA]; exact hk), sourcesOf_fTot]
          by_cases h : getReg x.2 = r
          · rw [if_pos h]
            exact nodup_addSource _ _ _ (hnd r)
          · rw [if_neg h]
            exact hnd r
        · intro r
          rw [totalOf_fSrc, totalOf_fTot rw _ _ r hk]
        · intro r
          rw [localOf_fSrc, localOf_fTot]
          have hcond : ¬ (getReg x.2 = r ∧ (some q0 : Option String) = some r) := by
            rintro ⟨h1, h2⟩
            exact hq0 ((Option.some_injective _ h2).trans h1.symm)
          rw [if_neg hcond, add_zero]
        · intro r q
          unfold sourceOf
          rw [sourcesOf_fSrc _ _ _ _ r (by rw [hkA]; exact hk), sourcesOf_fTot]
          by_cases h : getReg x.2 = r
          · rw [if_pos h, sourceVal_addSource]
            by_cases hq : q = q0
            · rw [if_pos hq,
                if_pos ⟨h, by rw [hq], fun hc => hq0 ((hq.symm.trans hc).trans h.symm),
                  fun hc => hq0e (hq.symm.trans hc)⟩]
            · rw [if_neg hq,
                if_neg (fun hc => hq (Option.some_injective _ hc.2.1).symm)]
          · rw [if_neg h, if_neg (fun hc => h hc.1), add_zero]
        · intro r
          unfold sumSources
          rw [sourcesOf_fSrc _ _ _ _ r (by rw [hkA]; exact hk), sourcesOf_fTot]
          by_cases h : getReg x.2 = r
          · rw [if_pos h, sumVals_addSource _ _ _ (hnd r)]
            have hsc : sCond (some q0) r = true := by
              show (!(q0 == r) && !(q0 == "")) = true
              rw [Bool.and_eq_true]
              exact ⟨by simpa using fun hc => hq0 (hc.trans h.symm), by simpa using hq0e⟩
            rw [if_pos ⟨h, hsc⟩]
          · rw [if_neg h, if_neg (fun hc => h hc.1), add_zero]

/-! ### Summing weights over filtered node lists -/
theorem wsum_nil : wsum [] = 0 := rfl

theorem wsum_cons (x : String × NodeRec) (l : List (String × NodeRec)) :
    wsum (x :: l) = x.2.weight + wsum l := by
  simp [wsum]

theorem beq2_iff (a r : String) (pr : Option String) :
    (a == r && pr == some r) = true ↔ (a = r ∧ pr = some r) := by
  simp [Bool.and_eq_true]

theorem beq4_iff (a r : String) (pr : Option String) (q : String) :
    (a == r && pr == some q && !(q == r) && !(q == "")) = true
      ↔ (a = r ∧ pr = some q ∧ ¬ q = r ∧ ¬ q = "") := by
  simp [Bool.and_eq_true, and_assoc]

theorem beqb_iff (a r : String) (b : Bool) :
    (a == r && b) = true ↔ (a = r ∧ b = true) := by
  simp [Bool.and_eq_true]

/-! ### The whole aggregation loop -/
theorem foldl_spec (nd : List (String × NodeRec)) (l : List (String × NodeRec)) :
    ∀ (rw : RegionStats),
    (∀ p ∈ l, (entryOf rw (getReg p.2)).isSome ∧ parentOkB nd p.2 = true) →
    (∀ r, ((sourcesOf rw r).map Prod.fst).Nodup) →
    ∃ rw', List.foldlM (stepNode nd) rw l = .ok rw' ∧
      keys rw' = keys rw ∧
      (∀ r, totalOf rw' r = totalOf rw r
        + wsum (l.filter (fun p => getReg p.2 == r))) ∧
      (∀ r, localOf rw' r = localOf rw r
        + wsum (l.filter (fun p => getReg p.2 == r && pRegD nd p.2 == some r))) ∧
      (∀ r q, sourceOf rw' r q = sourceOf rw r q
        + wsum (l.filter (fun p => getReg p.2 == r && pRegD nd p.2 == some q
            && !(q == r) && !(q == "")))) ∧
      (∀ r, sumSources rw' r = sumSources rw r
        + wsum (l.filter (fun p => getReg p.2 == r && sCond (pRegD nd p.2) r))) := by
  induction l with
  | nil =>
    intro rw _ _
    exact ⟨rw, rfl, rfl, fun r => by simp [wsum], fun r => by simp [wsum],
      fun r q => by simp [wsum], fun r => by simp [wsum]⟩
  | cons x l ih =>
    intro rw hl hnd
    obtain ⟨hkx, hpx⟩ := hl x (List.mem_cons_self x l)
    obtain ⟨rw₁, hstep, hkeys1, hnd1, htot1, hloc1, hsrc1, hsum1⟩ :=
      stepNode_spec nd rw x hkx hpx hnd
    have hl' : ∀ p ∈ l, (entryOf rw₁ (getReg p.2)).isSome ∧ parentOkB nd p.2 = true := by
      intro p hp
      refine ⟨?_, (hl p (List.mem_cons_of_mem x hp)).2⟩
      have hmem := (hl p (List.mem_cons_of_mem x hp)).1
      rw [← mem_keys_iff] at hmem ⊢
      rwa [hkeys1]
    obtain ⟨rw', hfold, hkeys', htot', hloc', hsrc', hsum'⟩ := ih rw₁ hl' hnd1
    refine ⟨rw', ?_, hkeys'.trans hkeys1, ?_, ?_, ?_, ?_⟩
    · rw [List.foldlM_cons, hstep]
      simpa [Except.bind, bind] using hfold
    · intro r
      by_cases h : getReg x.2 = r
      · have hf : List.filter (fun p => getReg p.2 == r) (x :: l)
            = x :: List.filter (fun p => getReg p.2 == r) l := by
          rw [List.filter_cons, if_pos (by simpa using h)]
        rw [htot' r, htot1 r, hf, wsum_cons, if_pos h]
        ring
      · have hf : List.filter (fun p => getReg p.2 == r) (x :: l)
            = List.filter (fun p => getReg p.2 == r) l := by
          rw [List.filter_cons, if_neg (by simpa using h)]
        rw [htot' r, htot1 r, hf, if_neg h]
        ring
    · intro r
      by_cases h : getReg x.2 = r ∧ pRegD nd x.2 = some r
      · have hf : List.filter (fun p => getReg p.2 == r && pRegD nd p.2 == some r) (x :: l)
            = x :: List.filter (fun p => getReg p.2 == r && pRegD nd p.2 == some r) l := by
          rw [List.filter_cons, if_pos ((beq2_iff _ _ _).mpr h)]
        rw [hloc' r, hloc1 r, hf, wsum_cons, if_pos h]
        ring
      · have hf : List.filter (fun p => getReg p.2 == r && pRegD nd p.2 == some r) (x :: l)
            = List.filter (fun p => getReg p.2 == r && pRegD nd p.2 == some r) l := by
          rw [List.filter_cons, if_neg (fun hc => h ((beq2_iff _ _ _).mp hc))]
        rw [hloc' r, hloc1 r, hf, if_neg h]
        ring
    · intro r q
      by_cases h : getReg x.2 = r ∧ pRegD nd x.2 = some q ∧ ¬ q = r ∧ ¬ q = ""
      · have hf : List.filter (fun p => getReg p.2 == r && pRegD nd p.2 == some q
              && !(q == r) && !(q == "")) (x :: l)
            = x :: List.filter (fun p => getReg p.2 == r && pRegD nd p.2 == some q
              && !(q == r) && !(q == "")) l := by
          rw [List.filter_cons, if_pos ((beq4_iff _ _ _ _).mpr h)]
        rw [hsrc' r q, hsrc1 r q, hf, wsum_cons, if_pos h]
        ring
      · have hf : List.filter (fun p => getReg p.2 == r && pRegD nd p.2 == some q
              && !(q == r) && !(q == "")) (x :: l)
            = List.filter (fun p => getReg p.2 == r && pRegD nd p.2 == some q
              && !(q == r) && !(q == "")) l := by
          rw [List.filter_cons, if_neg (fun hc => h ((beq4_iff _ _ _ _).mp hc))]
        rw [hsrc' r q, hsrc1 r q, hf, if_neg h]
        ring
    · intro r
      by_cases h : getReg x.2 = r ∧ sCond (pRegD nd x.2) r = true
      · have hf : List.filter (fun p => getReg p.2 == r && sCond (pRegD nd p.2) r) (x :: l)
            = x :: List.filter (fun p => getReg p.2 == r && sCond (pRegD nd p.2) r) l := by
          rw [List.filter_cons, if_pos ((beqb_iff _ _ _).mpr h)]
        rw [hsum' r, hsum1 r, hf, wsum_cons, if_pos h]
        ring
      · have hf : List.filter (fun p => getReg p.2 == r && sCond (pRegD nd p.2) r) (x :: l)
            = List.filter (fun p => getReg p.2 == r && sCond (pRegD nd p.2) r) l := by
          rw [List.filter_cons, if_neg (fun hc => h ((beqb_iff _ _ _).mp hc))]
        rw [hsum' r, hsum1 r, hf, if_neg h]
        ring

/-! ### The initial `regions_weight` dict -/
theorem entryOf_initStats (seed : List String) (r : String) :
    entryOf (initStats seed) r = if r ∈ seed then some ⟨0, [], 0⟩ else none := by
  induction seed with
  | nil => simp [initStats, entryOf_nil]
  | cons a seed ih =>
    simp only [initStats, List.map_cons] at ih ⊢
    rw [entryOf_cons]
    by_cases h : a = r
    · rw [if_pos h, if_pos (by simp [h])]
    · rw [if_neg h, ih]
      by_cases hm : r ∈ seed
      · rw [if_pos hm, if_pos (by simp [hm])]
      · rw [if_neg hm, if_neg (by
          simp only [List.mem_cons]
          rintro (hc | hc)
          · exact h hc.symm
          · exact hm hc)]

theorem totalOf_initStats (seed : List String) (r : String) :
    totalOf (initStats seed) r = 0 := by
  unfold totalOf
  rw [entryOf_initStats]
  by_cases h : r ∈ seed
  · rw [if_pos h]
    rfl
  · rw [if_neg h]
    rfl

theorem localOf_initStats (seed : List String) (r : String) :
    localOf (initStats seed) r = 0 := by
  unfold localOf
  rw [entryOf_initStats]
  by_cases h : r ∈ seed
  · rw [if_pos h]
    rfl
  · rw [if_neg h]
    rfl

theorem sourcesOf_initStats (seed : List String) (r : String) :
    sourcesOf (initStats seed) r = [] := by
  unfold sourcesOf
  rw [entryOf_initStats]
  by_cases h : r ∈ seed
  · rw [if_pos h]
    rfl
  · rw [if_neg h]
    rfl

theorem sourceOf_initStats (seed : List String) (r q : String) :
    sourceOf (initStats seed) r q = 0 := by
  unfold sourceOf
  rw [sourcesOf_initStats]
  rfl

theorem sumSources_initStats (seed : List String) (r : String) :
    sumSources (initStats seed) r = 0 := by
  unfold sumSources
  rw [sourcesOf_initStats]
  rfl

theorem keys_initStats (seed : List String) : keys (initStats seed) = seed := by
  unfold keys initStats
  rw [List.map_map]
  exact (List.map_congr_left (fun a _ => rfl)).trans (List.map_id seed)

/-! ### Splitting filtered weight sums (for region conservation) -/
theorem wsum_filter_split (l : List (String × NodeRec)) (a b : String × NodeRec → Bool) :
    wsum (l.filter a)
      = wsum (l.filter (fun p => a p && b p)) + wsum (l.filter (fun p => a p && !(b p))) := by
  induction l with
  | nil => simp [wsum]
  | cons x l ih =>
    rw [List.filter_cons, List.filter_cons, List.filter_cons]
    by_cases ha : a x = true
    · by_cases hb : b x = true
      · rw [if_pos ha, if_pos (by simp [ha, hb]), if_neg (by simp [ha, hb]),
          wsum_cons, wsum_cons, ih]
        ring
      · rw [if_pos ha, if_neg (by simp [ha, hb]), if_pos (by simp [ha, hb]),
          wsum_cons, wsum_cons, ih]
        ring
    · rw [if_neg ha, if_neg (by simp [ha]), if_neg (by simp [ha]), ih]

/-! ### Claims C2 and C3: amended statements -/
/-- C2 (amended): for every annotated, weighted node table (every node's
region attribute exists and is an annotation value, and every parent
reference resolves to an annotated entry with a nonempty name), the
aggregation succeeds and produces stats in which, for every region `r`:
`total` is the sum of the weights of the nodes with region `r` (every node,
including the root, counted exactly once); `local` is the sum over such nodes
whose parent's region is also `r`; and `sources[q]` is the sum over such
nodes whose parent's region is `q`, *for `q ≠ r` and `q` nonempty* — the
amendment: an edge whose parent region is the empty string is dropped by the
source's truthiness test and contributes to neither `local` nor `sources`.
Nodes without a parent (the root) appear in no `local` or `sources` sum:
the root contributes only to `total`. -/
theorem C2_amended (nd : List (String × NodeRec)) (ann : List (String × String))
    (h1 : ∀ p ∈ nd, p.2.region.isSome = true)
    (h2 : ∀ p ∈ nd, getReg p.2 ∈ (ann.map Prod.snd).dedup)
    (h3 : ∀ p ∈ nd, parentOkB nd p.2 = true) :
    ∃ rw, calculate_spread_probabilities nd ann = .ok rw ∧
      (∀ r, totalOf rw r = wsum (nd.filter (fun p => getReg p.2 == r))) ∧
      (∀ r, localOf rw r = wsum (nd.filter (fun p => getReg p.2 == r
          && pRegD nd p.2 == some r))) ∧
      (∀ r q, sourceOf rw r q = wsum (nd.filter (fun p => getReg p.2 == r
          && pRegD nd p.2 == some q && !(q == r) && !(q == "")))) := by
  obtain ⟨rw, hfold, hkeys, htot, hloc, hsrc, hsum⟩ :=
    foldl_spec nd nd (initStats ((ann.map Prod.snd).dedup))
      (fun p hp => ⟨by rw [← mem_keys_iff, keys_initStats]; exact h2 p hp, h3 p hp⟩)
      (fun r => by rw [sourcesOf_initStats]; exact List.nodup_nil)
  refine ⟨rw, ?_, ?_, ?_, ?_⟩
  · unfold calculate_spread_probabilities
    exact hfold
  · intro r
    rw [htot r, totalOf_initStats, zero_add]
  · intro r
    rw [hloc r, localOf_initStats, zero_add]
  · intro r q
    rw [hsrc r q, sourceOf_initStats, zero_add]

/-- The parent region a node's loop iteration reads, classified: either the
node is parentless, or its parent resolves to an annotated entry whose
region is nonempty. -/
theorem pRegD_classify (nd : List (String × NodeRec))
    (h3 : ∀ p ∈ nd, parentOkB nd p.2 = true)
    (hne : ∀ p ∈ nd, ¬ getReg p.2 = "") :
    ∀ p ∈ nd, (pRegD nd p.2 = none ∧ p.2.parent = none)
      ∨ (∃ q, pRegD nd p.2 = some q ∧ ¬ q = "" ∧ p.2.parent ≠ none) := by
  intro p hp
  have h3p := h3 p hp
  unfold parentOkB at h3p
  cases hpar : p.2.parent with
  | none => exact Or.inl ⟨by simp [pRegD, hpar], rfl⟩
  | some pq =>
    rw [hpar] at h3p
    simp only [Bool.and_eq_true] at h3p
    obtain ⟨hq1, hq2⟩ := h3p
    have hq1' : ¬ pq = "" := by simpa using hq1
    right
    cases hdf : dictFind nd pq with
    | none =>
      rw [hdf] at hq2
      simp at hq2
    | some e =>
      rw [hdf] at hq2
      have h2e : e.region.isSome = true := by simpa using hq2
      cases hreg : e.region with
      | none =>
        rw [hreg] at h2e
        simp at h2e
      | some rr =>
        refine ⟨rr, by simp [pRegD, hpar, hdf, hreg, hq1'], ?_, by simp [hpar]⟩
        obtain ⟨pr, hfind, hsnd⟩ := Option.map_eq_some'.mp hdf
        have hmem := List.mem_of_find?_eq_some hfind
        have := hne pr hmem
        rw [hsnd] at this
        unfold getReg at this
        rw [hreg] at this
        simpa using this

/-- C3 (amended): over an annotated weighted node table with a unique root
and *no empty-string regions* (the amendment: a node whose parent region is
the empty string would be dropped from both `local` and `sources`, breaking
conservation), `total - local - Σ sources` for region `r` equals the root's
weight when the root's region is `r`, else 0. -/
theorem C3_amended (nd : List (String × NodeRec)) (ann : List (String × String))
    (rt : String × NodeRec)
    (h1 : ∀ p ∈ nd, p.2.region.isSome = true)
    (h2 : ∀ p ∈ nd, getReg p.2 ∈ (ann.map Prod.snd).dedup)
    (h3 : ∀ p ∈ nd, parentOkB nd p.2 = true)
    (hroot : nd.filter (fun p => p.2.parent == none) = [rt])
    (hne : ∀ p ∈ nd, ¬ getReg p.2 = "") :
    ∃ rw, calculate_spread_probabilities nd ann = .ok rw ∧
      ∀ r, totalOf rw r - localOf rw r - sumSources rw r
        = if getReg rt.2 = r then rt.2.weight else 0 := by
  obtain ⟨rw, hfold, hkeys, htot, hloc, hsrc, hsum⟩ :=
    foldl_spec nd nd (initStats ((ann.map Prod.snd).dedup))
      (fun p hp => ⟨by rw [← mem_keys_iff, keys_initStats]; exact h2 p hp, h3 p hp⟩)
      (fun r => by rw [sourcesOf_initStats]; exact List.nodup_nil)
  refine ⟨rw, by unfold calculate_spread_probabilities; exact hfold, ?_⟩
  intro r
  rw [htot r, hloc r, hsum r, totalOf_initStats, localOf_initStats, sumSources_initStats,
    zero_add, zero_add, zero_add]
  have hclass := pRegD_classify nd h3 hne
  -- the `sources` sum counts exactly the region-`r` nodes whose parent region
  -- is truthy and differs from `r`
  have hcongr1 : ∀ p ∈ nd, (getReg p.2 == r && sCond (pRegD nd p.2) r)
      = ((getReg p.2 == r && !(pRegD nd p.2 == some r)) && sCond (pRegD nd p.2) r) := by
    intro p _
    cases hpq : pRegD nd p.2 with
    | none => simp [sCond]
    | some q =>
      by_cases hqr : q = r
      · simp [sCond, hqr]
      · have hb : (q == r) = false := by simp [hqr]
        simp [sCond, hb]
  -- region-`r` nodes in neither `local` nor `sources` are exactly the
  -- parentless ones (no parent region can be the empty string here)
  have hcongr2 : ∀ p ∈ nd, ((getReg p.2 == r && !(pRegD nd p.2 == some r))
        && !(sCond (pRegD nd p.2) r))
      = (getReg p.2 == r && p.2.parent == none) := by
    intro p hp
    rcases hclass p hp with ⟨hn, hpn⟩ | ⟨q, hq, hqe, hpne⟩
    · rw [hn, hpn]
      simp [sCond]
    · rw [hq]
      have hpn' : (p.2.parent == none) = false := by
        cases hpar : p.2.parent with
        | none => exact absurd hpar hpne
        | some a => rfl
      rw [hpn']
      by_cases hqr : q = r
      · simp [sCond, hqr]
      · simp [sCond, hqr, hqe]
  have split1 := wsum_filter_split nd (fun p => getReg p.2 == r)
    (fun p => pRegD nd p.2 == some r)
  have split2 := wsum_filter_split nd
    (fun p => getReg p.2 == r && !(pRegD nd p.2 == some r))
    (fun p => sCond (pRegD nd p.2) r)
  have hz : wsum (nd.filter (fun p => (getReg p.2 == r && !(pRegD nd p.2 == some r))
        && !(sCond (pRegD nd p.2) r)))
      = if getReg rt.2 = r then rt.2.weight else 0 := by
    rw [List.filter_congr hcongr2]
    have hff : nd.filter (fun p => getReg p.2 == r && p.2.parent == none)
        = (nd.filter (fun p => p.2.parent == none)).filter (fun p => getReg p.2 == r) := by
      rw [List.filter_filter]
    rw [hff, hroot, List.filter_cons, List.filter_nil]
    by_cases h : getReg rt.2 = r
    · rw [if_pos (by simpa using h), if_pos h, wsum_cons, wsum_nil, add_zero]
    · rw [if_neg (by simpa using h), if_neg h, wsum_nil]
  rw [List.filter_congr hcongr1]
  simp only [] at split1 split2
  linarith [split1, split2, hz]

/-- C2 witness: the amended characterisation applied to the concrete
scenario table, with all hypotheses discharged by computation. -/
theorem C2_witness :
    ∃ rw, calculate_spread_probabilities exScNd exScAnn = .ok rw ∧
      (∀ r, totalOf rw r = wsum (exScNd.filter (fun p => getReg p.2 == r))) ∧
      (∀ r, localOf rw r = wsum (exScNd.filter (fun p => getReg p.2 == r
          && pRegD exScNd p.2 == some r))) ∧
      (∀ r q, sourceOf rw r q = wsum (exScNd.filter (fun p => getReg p.2 == r
          && pRegD exScNd p.2 == some q && !(q == r) && !(q == "")))) :=
  C2_amended exScNd exScAnn (by decide) (by decide) (by decide)

/-- C3 witness: region conservation on the concrete scenario table, root `C`. -/
theorem C3_witness :
    ∃ rw, calculate_spread_probabilities exScNd exScAnn = .ok rw ∧
      ∀ r, totalOf rw r - localOf rw r - sumSources rw r
        = if getReg exScC.2 = r then exScC.2.weight else 0 :=
  C3_amended exScNd exScAnn exScC (by decide) (by decide) (by decide) (by decide) (by decide)

theorem splitAux_nil (s : Char) (ss acc : List Char) :
    splitAux s ss [] acc = [acc.reverse] := by
  rw [splitAux]

theorem splitAux_cons (s : Char) (ss : List Char) (c : Char) (rest acc : List Char) :
    splitAux s ss (c :: rest) acc =
      if (s :: ss).isPrefixOf (c :: rest) then
        acc.reverse :: splitAux s ss (rest.drop ss.length) []
      else splitAux s ss rest (c :: acc) := by
  rw [splitAux]

/-- C9 counterexample: the claim states that each annotated token
`name:bl[&state=V]` emits `name\tV` and each unannotated token emits
`name\tBLANK`.  On the concrete line, token `B:0.2` is unannotated and token
`C:0.0[&state=X]` is annotated, but the emitted lines are
`A\tX`, `B\tX`, `;\tUnknown`: the unannotated token is concatenated with the
following token inside its `']'`-segment, so `B` is emitted with `C`'s state
`X`, no `B\tUnknown` line exists, and no `C\tX` line exists. -/
theorem C9_counterexample :
    parse_nex "Unknown".toList [exNexLine]
      = ["A\tX".toList, "B\tX".toList, ";\tUnknown".toList] ∧
    "C\tX".toList ∉ parse_nex "Unknown".toList [exNexLine] ∧
    "B\tUnknown".toList ∉ parse_nex "Unknown".toList [exNexLine] := by
  have hev : parse_nex "Unknown".toList [exNexLine]
      = ["A\tX".toList, "B\tX".toList, ";\tUnknown".toList] := by
    simp +decide [parse_nex, parse_line, parse_token, pySplit, splitAux_cons, splitAux_nil,
      trimL, isSpaceC, stateSep, keepC, exNexLine]
  refine ⟨hev, ?_, ?_⟩
  · rw [hev]
    decide
  · rw [hev]
    decide

/-! ### Split lemmas for the segment grammar -/
theorem isPrefixOf_append_self (l t : List Char) : l.isPrefixOf (l ++ t) = true := by
  induction l with
  | nil => simp [List.isPrefixOf]
  | cons c l ih => simp [List.isPrefixOf, ih]

theorem splitAux_no_sep (s : Char) (ss : List Char) :
    ∀ (l : List Char), s ∉ l → ∀ acc, splitAux s ss l acc = [acc.reverse ++ l] := by
  intro l
  induction l with
  | nil =>
    intro _ acc
    rw [splitAux_nil]
    simp
  | cons c rest ih =>
    intro hs acc
    have hc : ¬ s = c := fun hc => hs (hc ▸ List.mem_cons_self c rest)
    have hpre : ¬ ((s :: ss).isPrefixOf (c :: rest) = true) := by
      simp [List.isPrefixOf, hc]
    rw [splitAux_cons, if_neg hpre, ih (fun hm => hs (List.mem_cons_of_mem c hm)) (c :: acc)]
    simp

theorem splitAux_first_sep (s : Char) (ss b : List Char) :
    ∀ (a : List Char), s ∉ a → ∀ acc,
      splitAux s ss (a ++ (s :: (ss ++ b))) acc
        = (acc.reverse ++ a) :: splitAux s ss b [] := by
  intro a
  induction a with
  | nil =>
    intro _ acc
    simp only [List.nil_append]
    have hpre : ((s :: ss).isPrefixOf (s :: (ss ++ b))) = true := by
      simpa using isPrefixOf_append_self (s :: ss) b
    rw [splitAux_cons, if_pos hpre, List.drop_left]
    simp
  | cons x a' ih =>
    intro hs acc
    have hx : ¬ s = x := fun hc => hs (hc ▸ List.mem_cons_self x a')
    simp only [List.cons_append]
    rw [splitAux_cons, if_neg (by simp [List.isPrefixOf, hx]),
      ih (fun hm => hs (List.mem_cons_of_mem x hm)) (x :: acc)]
    simp

theorem pySplit_no_sep (s : Char) (ss l : List Char) (h : s ∉ l) : pySplit s ss l = [l] := by
  rw [pySplit, splitAux_no_sep s ss l h []]
  simp

theorem pySplit_head (s : Char) (ss b a : List Char) (ha : s ∉ a) :
    (pySplit s ss (a ++ (s :: (ss ++ b)))).headD [] = a := by
  rw [pySplit, splitAux_first_sep s ss b a ha []]
  simp

theorem splitAux_ne_nil (s : Char) (ss : List Char) :
    ∀ (n : Nat) (l acc : List Char), l.length ≤ n → splitAux s ss l acc ≠ [] := by
  intro n
  induction n with
  | zero =>
    intro l acc hl
    have hnil : l = [] := List.eq_nil_of_length_eq_zero (Nat.le_zero.mp hl)
    subst hnil
    rw [splitAux_nil]
    simp
  | succ n ih =>
    intro l acc hl
    cases l with
    | nil =>
      rw [splitAux_nil]
      simp
    | cons c rest =>
      rw [splitAux_cons]
      by_cases hp : ((s :: ss).isPrefixOf (c :: rest)) = true
      · rw [if_pos hp]
        simp
      · rw [if_neg hp]
        apply ih
        simp only [List.length_cons] at hl
        omega

theorem getLastD_cons_ne {α : Type} (a : α) (l : List α) (d : α) (h : l ≠ []) :
    (a :: l).getLastD d = l.getLastD d := by
  rw [List.getLastD_cons]
  cases l with
  | nil => exact absurd rfl h
  | cons b l' => rw [List.getLastD_cons, List.getLastD_cons]

/-- `j.split('(')[-1]` on a list of the shape `x ++ '(' :: y` with `y` free
of `'('` is `y`. -/
theorem after_last_paren (y : List Char) (hy : '(' ∉ y) :
    ∀ (x acc : List Char), (splitAux '(' [] (x ++ ('(' :: y)) acc).getLastD [] = y := by
  intro x
  induction x with
  | nil =>
    intro acc
    simp only [List.nil_append]
    rw [splitAux_cons, if_pos (by simp [List.isPrefixOf])]
    simp only [List.length_nil, List.drop_zero]
    rw [splitAux_no_sep '(' [] y hy []]
    simp
  | cons c x' ih =>
    intro acc
    simp only [List.cons_append]
    rw [splitAux_cons]
    by_cases hc : ('(' : Char) = c
    · rw [if_pos (by simp [List.isPrefixOf, hc.symm])]
      simp only [List.length_nil, List.drop_zero]
      rw [getLastD_cons_ne _ _ _
        (splitAux_ne_nil '(' [] (x' ++ ('(' :: y)).length (x' ++ ('(' :: y)) [] le_rfl)]
      exact ih []
    · rw [if_neg (by simp [List.isPrefixOf, hc])]
      exact ih (c :: acc)

theorem dropWhile_head_not {α : Type} (p : α → Bool) :
    ∀ (l : List α) (c : α) (rest : List α), l.dropWhile p = c :: rest → p c = false := by
  intro l
  induction l with
  | nil =>
    intro c rest h
    simp [List.dropWhile] at h
  | cons a l ih =>
    intro c rest h
    rw [List.dropWhile_cons] at h
    by_cases hpa : p a = true
    · rw [if_pos hpa] at h
      exact ih c rest h
    · rw [if_neg hpa] at h
      cases h
      simpa using hpa

/-- A `dOK` prefix either has no `'('` at all (and is all-removable), or
decomposes as `d₀ ++ '(' :: d₁` with the tail `d₁` `'('`-free and
all-removable. -/
theorem dOK_cases (d : List Char) (h : dOK d = true) :
    ('(' ∉ d ∧ ∀ c ∈ d, delim3 c = true)
      ∨ (∃ d₀ d₁, d = d₀ ++ ('(' :: d₁) ∧ '(' ∉ d₁ ∧ ∀ c ∈ d₁, delim3 c = true) := by
  unfold dOK at h
  rw [Bool.and_eq_true] at h
  obtain ⟨h1, _⟩ := h
  rw [List.all_eq_true] at h1
  by_cases hp : '(' ∈ d
  · right
    cases hdw : d.reverse.dropWhile (fun c => !(c == '(')) with
    | nil =>
      exfalso
      have htw : d.reverse.takeWhile (fun c => !(c == '(')) = d.reverse := by
        have := List.takeWhile_append_dropWhile (fun c => !(c == '(')) d.reverse
        rwa [hdw, List.append_nil] at this
      have hmem : '(' ∈ d.reverse := List.mem_reverse.mpr hp
      rw [← htw] at hmem
      have := List.mem_takeWhile_imp hmem
      simp at this
    | cons c dw' =>
      have hc : ('(' : Char) = c := by
        have h' := dropWhile_head_not (fun c => !(c == '(')) d.reverse c dw' hdw
        simp at h'
        exact h'.symm
      refine ⟨dw'.reverse, (d.reverse.takeWhile (fun c => !(c == '('))).reverse, ?_, ?_, ?_⟩
      · conv_lhs => rw [← List.reverse_reverse d]
        conv_lhs => rw [← List.takeWhile_append_dropWhile (fun c => !(c == '(')) d.reverse]
        rw [hdw, List.reverse_append, List.reverse_cons, List.append_assoc, ← hc]
        simp
      · intro hmem
        rw [List.mem_reverse] at hmem
        have := List.mem_takeWhile_imp hmem
        simp at this
      · intro c hc'
        rw [List.mem_reverse] at hc'
        exact h1 c hc'
  · left
    refine ⟨hp, ?_⟩
    have htw : d.reverse.takeWhile (fun c => !(c == '(')) = d.reverse := by
      rw [List.takeWhile_eq_self_iff]
      intro a ha
      rw [List.mem_reverse] at ha
      simp only [Bool.not_eq_eq_eq_not, Bool.not_true, beq_eq_false_iff_ne, ne_eq]
      exact fun hc => hp (hc ▸ ha)
    intro c hc'
    apply h1
    rw [htw, List.mem_reverse]
    exact hc'

theorem okChar_spec (c : Char) (h : okChar c = true) :
    keepC c = true ∧ ¬ c = '(' ∧ ¬ c = '[' ∧ ¬ c = ':' ∧ ¬ c = ']' := by
  unfold okChar at h
  simp only [Bool.and_eq_true, Bool.not_eq_eq_eq_not, Bool.not_true, beq_eq_false_iff_ne,
    ne_eq] at h
  obtain ⟨⟨⟨⟨⟨⟨⟨h1, h2⟩, h3⟩, h4⟩, h5⟩, h6⟩, h7⟩, _⟩ := h
  refine ⟨?_, h1, h5, h4, h6⟩
  unfold keepC
  simp only [Bool.not_eq_eq_eq_not, Bool.not_true, Bool.or_eq_false_iff,
    beq_eq_false_iff_ne, ne_eq]
  exact ⟨⟨h7, h2⟩, h3⟩

theorem delim3_not_keep (c : Char) (h : delim3 c = true) : ¬ keepC c = true := by
  unfold delim3 at h
  unfold keepC
  rw [Bool.or_eq_true, Bool.or_eq_true] at h
  rcases h with (h' | h') | h' <;> simp [eq_of_beq h']

theorem stateSep_chars (c : Char) (h : c ∈ stateSep) :
    keepC c = true ∧ ¬ c = '(' ∧ ¬ c = ']' := by
  fin_cases h <;> refine ⟨rfl, by decide, by decide⟩

/-- The behaviour of `parse_token` on a well-formed annotated token segment:
it emits exactly `name\tv`. -/
theorem parse_token_ann (blank d name bl v : List Char)
    (hd : dOK d = true) (hn : ∀ c ∈ name, okChar c = true)
    (hb : ∀ c ∈ bl, okChar c = true) (hv : ∀ c ∈ v, okChar c = true) :
    parse_token blank (d ++ (name ++ (':' :: (bl ++ ('[' :: (stateSep ++ v))))))
      = name ++ '\t' :: v := by
  have hrest : '(' ∉ name ++ (':' :: (bl ++ ('[' :: (stateSep ++ v)))) := by
    intro hmem
    simp only [List.mem_append, List.mem_cons] at hmem
    rcases hmem with hm | hm | hm | hm | hm
    · exact (okChar_spec _ (hn _ hm)).2.1 rfl
    · exact absurd hm (by decide)
    · exact (okChar_spec _ (hb _ hm)).2.1 rfl
    · exact absurd hm (by decide)
    · rcases hm with hm' | hm'
      · exact (stateSep_chars _ hm').2.1 rfl
      · exact (okChar_spec _ (hv _ hm')).2.1 rfl
  obtain ⟨dt, hp0eq, hdt⟩ : ∃ dt,
      (pySplit '(' [] (d ++ (name ++ (':' :: (bl ++ ('[' :: (stateSep ++ v))))))).getLastD []
        = dt ++ (name ++ (':' :: (bl ++ ('[' :: (stateSep ++ v))))) ∧
        ∀ c ∈ dt, delim3 c = true := by
    rcases dOK_cases d hd with ⟨hnp, hall⟩ | ⟨d₀, d₁, hdec, hnp1, hall1⟩
    · refine ⟨d, ?_, hall⟩
      have hno : '(' ∉ d ++ (name ++ (':' :: (bl ++ ('[' :: (stateSep ++ v))))) := by
        intro hm
        rcases List.mem_append.mp hm with hm' | hm'
        · exact hnp hm'
        · exact hrest hm'
      rw [pySplit_no_sep _ _ _ hno]
      rfl
    · refine ⟨d₁, ?_, hall1⟩
      have hshape : d ++ (name ++ (':' :: (bl ++ ('[' :: (stateSep ++ v)))))
          = d₀ ++ ('(' :: (d₁ ++ (name ++ (':' :: (bl ++ ('[' :: (stateSep ++ v))))))) := by
        rw [hdec]
        simp [List.append_assoc]
      have hy : '(' ∉ d₁ ++ (name ++ (':' :: (bl ++ ('[' :: (stateSep ++ v))))) := by
        intro hm
        rcases List.mem_append.mp hm with hm' | hm'
        · exact hnp1 hm'
        · exact hrest hm'
      rw [hshape, pySplit]
      exact after_last_paren _ hy d₀ []
  unfold parse_token
  rw [hp0eq]
  have hfilter : (dt ++ (name ++ (':' :: (bl ++ ('[' :: (stateSep ++ v)))))).filter keepC
      = name ++ (':' :: (bl ++ ('[' :: (stateSep ++ v)))) := by
    rw [List.filter_append, List.filter_eq_nil.mpr (fun c hc => delim3_not_keep c (hdt c hc)),
      List.nil_append, List.filter_eq_self.mpr ?hkeep]
    case hkeep =>
      intro c hc
      simp only [List.mem_append, List.mem_cons] at hc
      rcases hc with hm | hm | hm | hm | hm
      · exact (okChar_spec _ (hn _ hm)).1
      · rw [hm]
        rfl
      · exact (okChar_spec _ (hb _ hm)).1
      · rw [hm]
        rfl
      · rcases hm with hm' | hm'
        · exact (stateSep_chars _ hm').1
        · exact (okChar_spec _ (hv _ hm')).1
  rw [hfilter]
  have hshape2 : name ++ (':' :: (bl ++ ('[' :: (stateSep ++ v))))
      = (name ++ (':' :: bl)) ++ ('[' :: (stateSep ++ v)) := by
    simp [List.append_assoc]
  have hnoLb : '[' ∉ name ++ (':' :: bl) := by
    intro hm
    rcases List.mem_append.mp hm with hm' | hm'
    · exact (okChar_spec _ (hn _ hm')).2.2.1 rfl
    · rcases List.mem_cons.mp hm' with hm'' | hm''
      · exact absurd hm'' (by decide)
      · exact (okChar_spec _ (hb _ hm'')).2.2.1 rfl
  have hvLb : '[' ∉ v := fun hm => (okChar_spec _ (hv _ hm)).2.2.1 rfl
  rw [hshape2, pySplit, splitAux_first_sep '[' stateSep v (name ++ (':' :: bl)) hnoLb [],
    splitAux_no_sep '[' stateSep v hvLb []]
  simp only [List.reverse_nil, List.nil_append]
  have hnameColon : ':' ∉ name := fun hm => (okChar_spec _ (hn _ hm)).2.2.2.1 rfl
  have hhead : (pySplit ':' [] (name ++ (':' :: bl))).headD [] = name := by
    have := pySplit_head ':' [] bl name hnameColon
    simpa using this
  rw [hhead]

theorem pySplit_joinSepR :
    ∀ (segs : List (List Char)), segs ≠ [] → (∀ x ∈ segs, ']' ∉ x) →
      pySplit ']' [] (joinSepR segs) = segs := by
  intro segs
  induction segs with
  | nil => intro h _; exact absurd rfl h
  | cons x xs ih =>
    intro _ hs
    cases xs with
    | nil => exact pySplit_no_sep ']' [] x (hs x (List.mem_cons_self x []))
    | cons y ys =>
      have h1 : joinSepR (x :: y :: ys) = x ++ (']' :: ([] ++ joinSepR (y :: ys))) := by
        simp [joinSepR]
      rw [h1, pySplit,
        splitAux_first_sep ']' [] (joinSepR (y :: ys)) x (hs x (List.mem_cons_self x _)) []]
      simp only [List.reverse_nil, List.nil_append]
      rw [← pySplit, ih (by simp) (fun z hz => hs z (List.mem_cons_of_mem _ hz))]

/-- C9 (amended): the claim's annotated-token half holds for lines in which
*every* node token carries a state annotation: a Tree line assembled from
`']'`-separated segments, each a well-formed annotated token
`d ++ name:bl[&state=v` (`d` the structural text after the previous `']'`,
`name`/`bl`/`v` free of the parser's delimiter characters), plus a trailing
remnant segment (e.g. `";"`), emits exactly `name\tv` for each token, plus
whatever `parse_token` yields on the remnant.  The unannotated-token half of
the original claim is dropped: an unannotated token has no `']'` of its own,
so its text is merged into the following segment and it is never emitted
with the blank default (see the counterexample). -/
theorem C9_amended (blank : List Char)
    (toks : List (List Char × List Char × List Char × List Char)) (tail : List Char)
    (htoks : ∀ t ∈ toks, TokOK t)
    (htail : ']' ∉ tail)
    (hline : trimL (joinSepR (toks.map mkTok ++ [tail]))
      = joinSepR (toks.map mkTok ++ [tail]))
    (hpre : "Tree".toList.isPrefixOf (joinSepR (toks.map mkTok ++ [tail])) = true) :
    parse_nex blank [joinSepR (toks.map mkTok ++ [tail])]
      = toks.map (fun t => t.2.1 ++ '\t' :: t.2.2.2) ++ [parse_token blank tail] := by
  have hseg : ∀ x ∈ toks.map mkTok ++ [tail], ']' ∉ x := by
    intro x hx
    rcases List.mem_append.mp hx with hx | hx
    · obtain ⟨t, ht, rfl⟩ := List.mem_map.mp hx
      obtain ⟨hd, hn, hb, hv⟩ := htoks t ht
      intro hmem
      unfold mkTok at hmem
      simp only [List.mem_append, List.mem_cons] at hmem
      rcases hmem with hm | hm | hm | hm | hm | hm
      · unfold dOK at hd
        rw [Bool.and_eq_true] at hd
        have := hd.2
        simp only [Bool.not_eq_eq_eq_not, Bool.not_true] at this
        exact absurd hm (by simpa using this)
      · exact (okChar_spec _ (hn _ hm)).2.2.2.2 rfl
      · exact absurd hm (by decide)
      · exact (okChar_spec _ (hb _ hm)).2.2.2.2 rfl
      · exact absurd hm (by decide)
      · rcases hm with hm' | hm'
        · exact (stateSep_chars _ hm').2.2 rfl
        · exact (okChar_spec _ (hv _ hm')).2.2.2.2 rfl
    · rw [List.mem_singleton.mp hx]
      exact htail
  have hsplit := pySplit_joinSepR (toks.map mkTok ++ [tail]) (by simp) hseg
  unfold parse_nex
  simp only [List.map_cons, List.map_nil, List.flatten_cons, List.flatten_nil,
    List.append_nil]
  unfold parse_line
  rw [hline, if_pos hpre, hsplit, List.map_append, List.map_map]
  congr 1
  · apply List.map_congr_left
    intro t ht
    obtain ⟨hd, hn, hb, hv⟩ := htoks t ht
    have := parse_token_ann blank t.1 t.2.1 t.2.2.1 t.2.2.2 hd hn hb hv
    simpa [Function.comp, mkTok] using this

/-- C9 witness: the amended theorem applied to the concrete fully annotated
line `Tree t= (A:1[&state=X],B:2[&state=Y]);` — tokens `A` and `B` emit
`A\tX` and `B\tY`. -/
theorem C9_witness :
    parse_nex "Unknown".toList [joinSepR ([exTok1, exTok2].map mkTok ++ [");".toList])]
      = [exTok1, exTok2].map (fun t => t.2.1 ++ '\t' :: t.2.2.2)
        ++ [parse_token "Unknown".toList ");".toList] :=
  C9_amended "Unknown".toList [exTok1, exTok2] ");".toList (by decide) (by decide)
    (by decide) (by decide)

end MLM
